import Mathlib

/-!
Shallow embedding of the tiny-struct binary codec (`src/field-types.ts` and
`src/index.ts`): byte-level DataView semantics, the built-in field types, the
struct compiler/codec (`struct`, `from`, `to`), and a heap model for the
record clone operation (`$clone`).

Modelling conventions:
* buffers are `List Nat` whose entries are bytes (writes always store values
  reduced mod 256, so every buffer this development produces satisfies that);
* JS numbers appearing in the codec are integral, so they are modelled as
  `Int`; bigints as `Int`; a JS string is modelled by its UTF-8 byte
  encoding, with TextEncoder/TextDecoder the identity on that representation;
* a thrown exception (DataView RangeError, TypeError from a coercion) is
  modelled as `none`, and operations that can throw return `Option`.
-/

namespace TinyStruct

/-- A JS string, modelled as its UTF-8 byte encoding. -/
abbrev Text := List Nat

/-- JS values that can appear as record fields: `num` models a JS number
(integral in this codec), `big` a bigint, `str` a string (by its byte
encoding), `bytes` a Uint8Array (by contents), and `undef` the value
`undefined`, which is what a missing record key reads as. -/
inductive Value where
  | num : Int → Value
  | big : Int → Value
  | str : Text → Value
  | bytes : List Nat → Value
  | undef : Value
deriving DecidableEq, Repr

/-- A JS DataView: the underlying ArrayBuffer's bytes plus the view's
byteOffset and byteLength. -/
structure DataView where
  data : List Nat
  viewOffset : Nat
  viewLen : Nat
deriving DecidableEq, Repr

/-- The view is backed by the buffer (true of every real DataView). -/
def DataView.wf (dv : DataView) : Prop :=
  dv.viewOffset + dv.viewLen ≤ dv.data.length

/-- `DataView.prototype.getUint8`: bounds-checked single-byte read, at a
view-relative index. `none` models the RangeError thrown on a negative or
out-of-range index. -/
def DataView.getUint8 (dv : DataView) (off : Int) : Option Nat :=
  if 0 ≤ off ∧ off + 1 ≤ (dv.viewLen : Int) then
    some (dv.data.getD (dv.viewOffset + off.toNat) 0)
  else none

/-- `DataView.prototype.setUint8` (and `setInt8`, which stores the same
byte): the value is reduced mod 256 and stored at the view-relative index. -/
def DataView.setUint8 (dv : DataView) (off : Int) (v : Int) : Option DataView :=
  if 0 ≤ off ∧ off + 1 ≤ (dv.viewLen : Int) then
    some ⟨dv.data.set (dv.viewOffset + off.toNat) (v % 256).toNat, dv.viewOffset, dv.viewLen⟩
  else none

/-- Little-endian byte decomposition of `x` into `w` bytes. -/
def natToLE : Nat → Nat → List Nat
  | 0, _ => []
  | w + 1, x => x % 256 :: natToLE w (x / 256)

/-- Value of a little-endian byte list. -/
def leToNat : List Nat → Nat
  | [] => 0
  | b :: bs => b + 256 * leToNat bs

/-- The `w` bytes a DataView integer setter stores for value `v`, in buffer
order, per the endianness flag: the value is reduced mod `2^(8w)` and laid
out low-byte-first iff little-endian. -/
def splitBytes (w : Nat) (v : Int) (le : Bool) : List Nat :=
  let bs := natToLE w (v % (2 ^ (8 * w))).toNat
  if le then bs else bs.reverse

/-- The unsigned value a DataView integer getter assembles from `w` bytes in
buffer order, per the endianness flag. -/
def combineBytes (le : Bool) (bs : List Nat) : Nat :=
  if le then leToNat bs else leToNat bs.reverse

/-- Overwrite consecutive entries of `data` starting at absolute index
`start`. -/
def writeList (data : List Nat) (start : Nat) : List Nat → List Nat
  | [] => data
  | b :: bs => writeList (data.set start b) (start + 1) bs

/-- Read `w` consecutive entries of `data` starting at absolute index
`start`. -/
def readList (data : List Nat) : Nat → Nat → List Nat
  | _, 0 => []
  | start, w + 1 => data.getD start 0 :: readList data (start + 1) w

/-- Shared semantics of `DataView.prototype.getUint16/getUint32/getBigUint64`:
one bounds check, then read `w` bytes and assemble per the endianness flag. -/
def DataView.getUintN (dv : DataView) (w : Nat) (off : Int) (le : Bool) : Option Nat :=
  if 0 ≤ off ∧ off + w ≤ (dv.viewLen : Int) then
    some (combineBytes le (readList dv.data (dv.viewOffset + off.toNat) w))
  else none

/-- Shared semantics of `DataView.prototype.setUint16/setUint32/setBigUint64`
(and the signed setters, which store the same bytes): one bounds check, then
reduce the value mod `2^(8w)` and store `w` bytes per the endianness flag. -/
def DataView.setUintN (dv : DataView) (w : Nat) (off : Int) (v : Int) (le : Bool) :
    Option DataView :=
  if 0 ≤ off ∧ off + w ≤ (dv.viewLen : Int) then
    some ⟨writeList dv.data (dv.viewOffset + off.toNat) (splitBytes w v le),
          dv.viewOffset, dv.viewLen⟩
  else none

/-- Reinterpret a `w`-byte unsigned value as two's-complement signed: the
conversion performed by `getInt8/getInt16/getInt32/getBigInt64` after the
byte read. -/
def toSigned (w : Nat) (u : Nat) : Int :=
  if u < 2 ^ (8 * w - 1) then (u : Int) else (u : Int) - 2 ^ (8 * w)

/-- The WebIDL number conversion applied by the 1/2/4-byte DataView setters
to their value argument: `undefined` converts to NaN, which the integer
conversion maps to 0; a bigint throws a TypeError (`none`). String- and
object-valued inputs, which JS would coerce via ToNumber, are outside the
modelled fragment and are not exercised by any struct in this development. -/
def Value.toNumInt : Value → Option Int
  | .num n => some n
  | .undef => some 0
  | _ => none

/-- The ToBigInt conversion applied by `setBigUint64`/`setBigInt64`: numbers
and `undefined` throw a TypeError (`none`); only bigints convert. -/
def Value.toBigIntVal : Value → Option Int
  | .big n => some n
  | _ => none

/-- `new TextEncoder().encode(value)`: a string encodes to its bytes;
`undefined` hits the default parameter `""` and encodes to the empty byte
list. Other values, which JS would first convert with ToString, are outside
the modelled fragment. -/
def Value.toTextBytes : Value → Option Text
  | .str s => some s
  | .undef => some []
  | _ => none

/-- The element read `value[i] || 0` used by the byte-array writer: indexing
`undefined` throws (`none`); an out-of-range index on a Uint8Array yields
`undefined`, which `|| 0` turns into 0; indexing a number or bigint also
yields `undefined`, hence 0. String-valued inputs (character indexing
followed by numeric coercion) are outside the modelled fragment. -/
def Value.elemOr0 : Value → Nat → Option Nat
  | .bytes l, i => some (l.getD i 0)
  | .undef, _ => none
  | .num _, _ => some 0
  | .big _, _ => some 0
  | .str _, _ => none

/-- A field type: fixed byte size plus parse/write against a DataView
(`src/field-types.ts`, interface `FieldType`). -/
structure FieldType where
  size : Nat
  parse : DataView → Int → Bool → Option Value
  write : DataView → Int → Value → Bool → Option DataView

/-- The read loop of `bytes(length).parse`: `result[i] = buffer.getUint8(offset + i)`
for `i` from 0; the remaining count drives the recursion. -/
def readBytesLoop (dv : DataView) : Int → Nat → Option (List Nat)
  | _, 0 => some []
  | off, n + 1 => do
      let b ← dv.getUint8 off
      let rest ← readBytesLoop dv (off + 1) n
      pure (b :: rest)

/-- The write loop of `bytes(length).write`:
`buffer.setUint8(offset + i, value[i] || 0)`, with `i` counting up and the
remaining count driving the recursion. The element read happens before the
store's bounds check, as in JS argument evaluation order. -/
def writeBytesLoop (value : Value) : DataView → Int → Nat → Nat → Option DataView
  | dv, _, _, 0 => some dv
  | dv, off, i, n + 1 => do
      let b ← value.elemOr0 i
      let dv' ← dv.setUint8 off (b : Int)
      writeBytesLoop value dv' (off + 1) (i + 1) n

/-- `src/field-types.ts` `bytes(length)`: fixed-size byte array field. -/
def bytes (length : Nat) : FieldType where
  size := length
  parse := fun buffer offset _ => (readBytesLoop buffer offset length).map Value.bytes
  write := fun buffer offset value _ => writeBytesLoop value buffer offset 0 length

/-- `src/field-types.ts` `uint8()`. The endianness flag is not consulted. -/
def uint8 : FieldType where
  size := 1
  parse := fun buffer offset _ => (buffer.getUint8 offset).map fun b => .num b
  write := fun buffer offset value _ => do
      let v ← value.toNumInt
      buffer.setUint8 offset v

/-- `src/field-types.ts` `uint16()`. -/
def uint16 : FieldType where
  size := 2
  parse := fun buffer offset littleEndian =>
    (buffer.getUintN 2 offset littleEndian).map fun u => .num u
  write := fun buffer offset value littleEndian => do
      let v ← value.toNumInt
      buffer.setUintN 2 offset v littleEndian

/-- `src/field-types.ts` `uint32()`. -/
def uint32 : FieldType where
  size := 4
  parse := fun buffer offset littleEndian =>
    (buffer.getUintN 4 offset littleEndian).map fun u => .num u
  write := fun buffer offset value littleEndian => do
      let v ← value.toNumInt
      buffer.setUintN 4 offset v littleEndian

/-- `src/field-types.ts` `uint64()`: bigint-valued. -/
def uint64 : FieldType where
  size := 8
  parse := fun buffer offset littleEndian =>
    (buffer.getUintN 8 offset littleEndian).map fun u => .big u
  write := fun buffer offset value littleEndian => do
      let v ← value.toBigIntVal
      buffer.setUintN 8 offset v littleEndian

/-- `src/field-types.ts` `int8()`: the stored byte reinterpreted as signed. -/
def int8 : FieldType where
  size := 1
  parse := fun buffer offset _ => (buffer.getUint8 offset).map fun b => .num (toSigned 1 b)
  write := fun buffer offset value _ => do
      let v ← value.toNumInt
      buffer.setUint8 offset v

/-- `src/field-types.ts` `int16()`. -/
def int16 : FieldType where
  size := 2
  parse := fun buffer offset littleEndian =>
    (buffer.getUintN 2 offset littleEndian).map fun u => .num (toSigned 2 u)
  write := fun buffer offset value littleEndian => do
      let v ← value.toNumInt
      buffer.setUintN 2 offset v littleEndian

/-- `src/field-types.ts` `int32()`. -/
def int32 : FieldType where
  size := 4
  parse := fun buffer offset littleEndian =>
    (buffer.getUintN 4 offset littleEndian).map fun u => .num (toSigned 4 u)
  write := fun buffer offset value littleEndian => do
      let v ← value.toNumInt
      buffer.setUintN 4 offset v littleEndian

/-- `src/field-types.ts` `int64()`: bigint-valued. -/
def int64 : FieldType where
  size := 8
  parse := fun buffer offset littleEndian =>
    (buffer.getUintN 8 offset littleEndian).map fun u => .big (toSigned 8 u)
  write := fun buffer offset value littleEndian => do
      let v ← value.toBigIntVal
      buffer.setUintN 8 offset v littleEndian

/-- The scan loop of `cstring(maxLength).parse`: read bytes at increasing
offsets, stopping at the first zero byte or when the length budget runs
out; collected bytes are the result. -/
def cstrRead (dv : DataView) : Int → Nat → Option (List Nat)
  | _, 0 => some []
  | off, n + 1 => do
      let b ← dv.getUint8 off
      if b = 0 then pure []
      else do
        let rest ← cstrRead dv (off + 1) n
        pure (b :: rest)

/-- Byte-writing loop shared by the text writers: one `setUint8` per byte at
consecutive offsets. -/
def writeTextLoop : DataView → Int → List Nat → Option DataView
  | dv, _, [] => some dv
  | dv, off, b :: bs => do
      let dv' ← dv.setUint8 off (b : Int)
      writeTextLoop dv' (off + 1) bs

/-- `src/field-types.ts` `cstring(maxLength)`: null-terminated string field.
The write truncates the encoding to `maxLength - 1` bytes (JS number
arithmetic, so the bound is `-1` when `maxLength = 0`) and stores a zero
terminator immediately after the written bytes. -/
def cstring (maxLength : Nat) : FieldType where
  size := maxLength
  parse := fun buffer offset _ => (cstrRead buffer offset maxLength).map Value.str
  write := fun buffer offset value _ => do
      let encoded ← value.toTextBytes
      let length : Int := min (encoded.length : Int) ((maxLength : Int) - 1)
      let dv ← writeTextLoop buffer offset (encoded.take length.toNat)
      dv.setUint8 (offset + length) 0

/-- `src/field-types.ts` `string(length)`: fixed-length string field. The
parse constructs `new Uint8Array(buffer.buffer, offset, length)`: it indexes
the *underlying* ArrayBuffer directly, with a bounds check against the
underlying buffer's length, and does not add the view's byteOffset. -/
def string (length : Nat) : FieldType where
  size := length
  parse := fun buffer offset _ =>
    if 0 ≤ offset ∧ offset + length ≤ (buffer.data.length : Int) then
      some (.str ((buffer.data.drop offset.toNat).take length))
    else none
  write := fun buffer offset value _ => do
      let encoded ← value.toTextBytes
      let bytesToWrite := min encoded.length length
      let dv ← writeTextLoop buffer offset (encoded.take bytesToWrite)
      writeTextLoop dv (offset + bytesToWrite) (List.replicate (length - bytesToWrite) 0)

/-- A buffer argument to `from`: a whole ArrayBuffer, or a Uint8Array view
given by its underlying bytes, byteOffset and byteLength. -/
inductive JSBuffer where
  | arrayBuffer : List Nat → JSBuffer
  | uint8Array : List Nat → Nat → Nat → JSBuffer
deriving DecidableEq, Repr

/-- The DataView `from` builds from its buffer argument: over the whole
ArrayBuffer, or mirroring the Uint8Array view's offset and length. -/
def JSBuffer.toDataView : JSBuffer → DataView
  | .arrayBuffer data => ⟨data, 0, data.length⟩
  | .uint8Array data off len => ⟨data, off, len⟩

/-- A record: field-name/value pairs, in declaration order. -/
abbrev Record := List (String × Value)

/-- The JS property read `values[fieldName]`: a missing key reads as
`undefined`. -/
def lookupValue (r : Record) (n : String) : Value :=
  match r.find? (fun p => p.1 = n) with
  | some p => p.2
  | none => .undef

abbrev Fields := List (String × FieldType)

/-- The construction-time size scan: `totalSize` accumulates every field's
size, starting from 0. -/
def totalSize (fields : Fields) : Nat :=
  fields.foldl (fun acc f => acc + f.2.size) 0

/-- The construction-time offset scan: each field's offset is the
accumulator value before its size is added. -/
def fieldOffsets (fields : Fields) (acc : Nat) : List (String × Nat) :=
  match fields with
  | [] => []
  | (n, ft) :: rest => (n, acc) :: fieldOffsets rest (acc + ft.size)

/-- A struct definition: name, ordered field list and the endianness flag.
Size and offsets are the derived scans above. -/
structure StructDef where
  name : String
  fields : Fields
  littleEndian : Bool

/-- `src/index.ts` `struct(name, fields, options)`: the options record
defaults `littleEndian` to false; no validation of field sizes is performed
and construction has no failure path. -/
def struct (name : String) (fields : Fields) (optLittleEndian : Option Bool) : StructDef :=
  ⟨name, fields, optLittleEndian.getD false⟩

/-- Total size of a struct, computed at construction. -/
def StructDef.size (s : StructDef) : Nat := totalSize s.fields

/-- The field-offset table of a struct, computed at construction. -/
def StructDef.offsets (s : StructDef) : List (String × Nat) := fieldOffsets s.fields 0

/-- The parse loop of `from`: each field parses at `offset + fieldOffsets[name]`;
the accumulator reproduces the construction-time offset scan. A field whose
parse throws aborts the whole call (no record is returned). -/
def parseFields (dv : DataView) (off : Int) (le : Bool) : Fields → Nat → Option Record
  | [], _ => some []
  | (n, ft) :: rest, acc => do
      let v ← ft.parse dv (off + acc) le
      let r ← parseFields dv off le rest (acc + ft.size)
      pure ((n, v) :: r)

/-- `src/index.ts` `from(buffer, offset = 0)` (named `fromBuffer` because
`from` is a reserved word in Lean): build the DataView, then parse every
field in declaration order. There is no up-front bounds check. -/
def StructDef.fromBuffer (s : StructDef) (buffer : JSBuffer) (offset : Int) : Option Record :=
  parseFields buffer.toDataView offset s.littleEndian s.fields 0

/-- The write loop of `to`: each field writes `values[fieldName]` at its
field offset. A field whose write throws aborts the whole call. -/
def writeFields (le : Bool) : Fields → DataView → Nat → Record → Option DataView
  | [], dv, _, _ => some dv
  | (n, ft) :: rest, dv, acc, values => do
      let dv' ← ft.write dv (acc : Int) (lookupValue values n) le
      writeFields le rest dv' (acc + ft.size) values

/-- `src/index.ts` `to(values)`: allocate a fresh zero-initialized buffer of
`totalSize` bytes, then write every field in declaration order. There is no
missing-field check: an absent key simply reads as `undefined`. -/
def StructDef.to (s : StructDef) (values : Record) : Option (List Nat) :=
  (writeFields s.littleEndian s.fields ⟨List.replicate s.size 0, 0, s.size⟩ 0 values).map
    fun dv => dv.data

/-- The shape classes of the built-in field types, used to quantify over
struct definitions whose fields all come from the built-in constructors. -/
inductive FieldKind where
  | bytesK : Nat → FieldKind
  | u8 : FieldKind
  | u16 : FieldKind
  | u32 : FieldKind
  | u64 : FieldKind
  | i8 : FieldKind
  | i16 : FieldKind
  | i32 : FieldKind
  | i64 : FieldKind
  | textK : Nat → FieldKind
  | czK : Nat → FieldKind
deriving DecidableEq, Repr

/-- The built-in field type a kind denotes. -/
def FieldKind.toFieldType : FieldKind → FieldType
  | .bytesK n => bytes n
  | .u8 => uint8
  | .u16 => uint16
  | .u32 => uint32
  | .u64 => uint64
  | .i8 => int8
  | .i16 => int16
  | .i32 => int32
  | .i64 => int64
  | .textK n => string n
  | .czK n => cstring n

/-- Declared size of a kind's field type. -/
def FieldKind.size (k : FieldKind) : Nat := k.toFieldType.size

/-- A kind-annotated field list turned into the field list handed to
`struct`. -/
def kindFields (kinds : List (String × FieldKind)) : Fields :=
  kinds.map fun p => (p.1, p.2.toFieldType)

/-- Byte-exact conformance of a value to a field kind: the lossless class of
the (amended) round-trip law. Byte arrays have exactly the declared length
and byte-sized entries; integers are in the width's representable range;
fixed text encodes to exactly the field width; null-terminated text fits in
`n - 1` bytes and contains no zero byte. -/
def FieldKind.conforms : FieldKind → Value → Bool
  | .bytesK n, .bytes l => l.length = n && l.all (· < 256)
  | .u8, .num v => 0 ≤ v && v < 2 ^ 8
  | .u16, .num v => 0 ≤ v && v < 2 ^ 16
  | .u32, .num v => 0 ≤ v && v < 2 ^ 32
  | .u64, .big v => 0 ≤ v && v < 2 ^ 64
  | .i8, .num v => -(2 ^ 7) ≤ v && v < 2 ^ 7
  | .i16, .num v => -(2 ^ 15) ≤ v && v < 2 ^ 15
  | .i32, .num v => -(2 ^ 31) ≤ v && v < 2 ^ 31
  | .i64, .big v => -(2 ^ 63) ≤ v && v < 2 ^ 63
  | .textK n, .str s => s.length = n && s.all (· < 256)
  | .czK n, .str s => s.length + 1 ≤ n && s.all (fun b => b ≠ 0 && b < 256)
  | _, _ => false

/-- Every field of the record (looked up by name) conforms to its declared
kind. -/
def recConforms (kinds : List (String × FieldKind)) (r : Record) : Bool :=
  kinds.all fun p => p.2.conforms (lookupValue r p.1)

/-- The `size` bytes a conforming value occupies in the buffer produced by
`to` (whose slots start out zero): the raw bytes, the endianness-ordered
integer bytes, the exact-width text, or the zero-padded null-terminated
text. -/
def FieldKind.slotBytes (le : Bool) : FieldKind → Value → List Nat
  | .bytesK _, .bytes l => l
  | .u8, .num v => splitBytes 1 v le
  | .u16, .num v => splitBytes 2 v le
  | .u32, .num v => splitBytes 4 v le
  | .u64, .big v => splitBytes 8 v le
  | .i8, .num v => splitBytes 1 v le
  | .i16, .num v => splitBytes 2 v le
  | .i32, .num v => splitBytes 4 v le
  | .i64, .big v => splitBytes 8 v le
  | .textK _, .str s => s
  | .czK n, .str s => s ++ List.replicate (n - s.length) 0
  | _, _ => []

/-- Kinds whose write encodes a missing key (`undefined`) as zero bytes
without failing: the 1/2/4-byte integers, fixed text, and null-terminated
text of size at least 1. Byte arrays and the 8-byte integers throw instead. -/
def FieldKind.undefWritesZero : FieldKind → Bool
  | .bytesK _ => false
  | .u64 => false
  | .i64 => false
  | .czK n => 1 ≤ n
  | _ => true

/-- Record field values as held in the JS heap: a byte-array field holds a
reference into the store of allocated Uint8Arrays; every other field is an
immutable primitive held by value. -/
inductive HValue where
  | num : Int → HValue
  | big : Int → HValue
  | str : Text → HValue
  | arr : Nat → HValue
deriving DecidableEq, Repr

/-- The store of allocated Uint8Arrays; an address is an index. -/
abbrev Store := List (List Nat)

/-- What a field reads as: references dereferenced to array contents. -/
def HValue.deref (st : Store) : HValue → Value
  | .num n => .num n
  | .big n => .big n
  | .str s => .str s
  | .arr a => .bytes (st.getD a [])

/-- A realized record: its enumerable fields plus the non-enumerable
`$struct` back-reference. -/
structure HRecord where
  fields : List (String × HValue)
  structRef : StructDef

/-- The body of `$clone`: the spread copies every enumerable field, then
each Uint8Array-valued field is replaced by `new Uint8Array(value)` — a
fresh allocation holding an element-wise copy, modelled by appending the
copied contents to the store. Other fields keep their value. -/
def cloneFields : List (String × HValue) → Store → List (String × HValue) × Store
  | [], st => ([], st)
  | (n, .arr a) :: rest, st =>
      let fresh := st.length
      let rec' := cloneFields rest (st ++ [st.getD a []])
      ((n, .arr fresh) :: rec'.1, rec'.2)
  | (n, v) :: rest, st =>
      let rec' := cloneFields rest st
      ((n, v) :: rec'.1, rec'.2)

/-- `src/index.ts` `$clone`: clone the fields and carry over the same
`$struct` back-reference (`this.$struct`). -/
def HRecord.clone (r : HRecord) (st : Store) : HRecord × Store :=
  ((⟨(cloneFields r.fields st).1, r.structRef⟩ : HRecord), (cloneFields r.fields st).2)

/-- Every byte-array reference of the record points into the store. -/
def HRecord.valid (r : HRecord) (st : Store) : Bool :=
  r.fields.all fun p =>
    match p.2 with
    | .arr a => decide (a < st.length)
    | _ => true

/-- Sum of the declared sizes of a kind-annotated field list. -/
def kindsTotal (kinds : List (String × FieldKind)) : Nat :=
  (kinds.map fun p => p.2.size).sum

/-- The buffer `to` produces for a conforming record: each field's slot
bytes, in declaration order. -/
def slotsConcat (kinds : List (String × FieldKind)) (r : Record) (le : Bool) : List Nat :=
  (kinds.map fun p => p.2.slotBytes le (lookupValue r p.1)).flatten

/-- The record `from` reassembles: each declared field, in declaration
order, paired with the value looked up from `r`. -/
def recOf (kinds : List (String × FieldKind)) (r : Record) : Record :=
  kinds.map fun p => (p.1, lookupValue r p.1)

/-- Sum of the sizes of the first `i` fields: the offset the construction
scan assigns to field `i`. -/
def prefixSizes (fields : Fields) (i : Nat) : Nat :=
  ((fields.take i).map fun f => f.2.size).sum

/-! ### List and loop lemmas -/

theorem getD_middle (pre mid post : List Nat) (i : Nat) (d : Nat) (h : i < mid.length) :
    (pre ++ mid ++ post).getD (pre.length + i) d = mid.getD i d := by
  rw [List.append_assoc, List.getD_append_right _ _ _ _ (Nat.le_add_right _ _),
    Nat.add_sub_cancel_left, List.getD_append _ _ _ _ h]

theorem set_at (pre : List Nat) (b : Nat) (suf : List Nat) (x : Nat) :
    (pre ++ b :: suf).set pre.length x = pre ++ x :: suf := by
  rw [List.set_append]
  simp

theorem emod256_toNat (b : Nat) : (((b : Int)) % 256).toNat = b % 256 := by
  omega

theorem writeTextLoop_spec (bs : List Nat) : ∀ (pre mid post : List Nat) (L : Nat),
    mid.length = bs.length → (∀ b ∈ bs, b < 256) → pre.length + bs.length ≤ L →
    writeTextLoop ⟨pre ++ mid ++ post, 0, L⟩ (pre.length : Int) bs
      = some ⟨pre ++ bs ++ post, 0, L⟩ := by
  induction bs with
  | nil =>
    intro pre mid post L hm _ _
    have hm' : mid = [] := List.length_eq_zero.mp (by simpa using hm)
    subst hm'
    rfl
  | cons b bs ih =>
    intro pre mid post L hm hlt hb
    match mid, hm with
    | m :: mid', hm =>
      simp only [List.length_cons] at hm hb
      have hck : (0 : Int) ≤ (pre.length : Int) ∧ (pre.length : Int) + 1 ≤ (L : Int) := by
        constructor
        · positivity
        · have h1 : pre.length + 1 ≤ L := by omega
          exact_mod_cast h1
      have hbyte : (((b : Int)) % 256).toNat = b := by
        rw [emod256_toNat]
        exact Nat.mod_eq_of_lt (hlt b (by simp))
      rw [writeTextLoop, DataView.setUint8, if_pos hck]
      have hset : (pre ++ (m :: mid') ++ post).set (0 + (pre.length : Int).toNat)
          (((b : Int)) % 256).toNat = (pre ++ [b]) ++ mid' ++ post := by
        rw [hbyte, Nat.zero_add, Int.toNat_natCast]
        have : pre ++ (m :: mid') ++ post = pre ++ m :: (mid' ++ post) := by simp
        rw [this, set_at]
        simp
      rw [Option.bind_eq_bind, Option.some_bind, hset]
      have harg : (pre.length : Int) + 1 = (((pre ++ [b]).length : Nat) : Int) := by
        simp
      rw [harg, ih (pre ++ [b]) mid' post L (by simpa using hm)
        (fun x hx => hlt x (by simp [hx])) (by simp; omega)]
      simp

theorem readBytesLoop_spec (mid : List Nat) : ∀ (pre post : List Nat) (L : Nat),
    pre.length + mid.length ≤ L →
    readBytesLoop ⟨pre ++ mid ++ post, 0, L⟩ (pre.length : Int) mid.length = some mid := by
  induction mid with
  | nil => intro pre post L _; rfl
  | cons m mid' ih =>
    intro pre post L hL
    simp only [List.length_cons] at hL ⊢
    have hck : (0 : Int) ≤ (pre.length : Int) ∧ (pre.length : Int) + 1 ≤ (L : Int) := by
      constructor
      · positivity
      · have h1 : pre.length + 1 ≤ L := by omega
        exact_mod_cast h1
    rw [readBytesLoop, DataView.getUint8, if_pos hck]
    have hget : (pre ++ (m :: mid') ++ post).getD (0 + (pre.length : Int).toNat) 0 = m := by
      rw [Nat.zero_add, Int.toNat_natCast]
      have := getD_middle pre (m :: mid') post 0 0 (by simp)
      simpa using this
    rw [Option.bind_eq_bind, Option.some_bind, hget]
    have harg : (pre.length : Int) + 1 = (((pre ++ [m]).length : Nat) : Int) := by simp
    have hshape : pre ++ (m :: mid') ++ post = (pre ++ [m]) ++ mid' ++ post := by simp
    rw [harg, hshape, ih (pre ++ [m]) post L (by simp; omega)]
    rfl

theorem readList_spec (mid : List Nat) : ∀ (pre post : List Nat),
    readList (pre ++ mid ++ post) pre.length mid.length = mid := by
  induction mid with
  | nil => intro pre post; rfl
  | cons m mid' ih =>
    intro pre post
    simp only [List.length_cons]
    have hget : (pre ++ (m :: mid') ++ post).getD pre.length 0 = m := by
      have := getD_middle pre (m :: mid') post 0 0 (by simp)
      simpa using this
    have hshape : pre ++ (m :: mid') ++ post = (pre ++ [m]) ++ mid' ++ post := by simp
    rw [readList, hget]
    have harg : pre.length + 1 = (pre ++ [m]).length := by simp
    rw [harg, hshape, ih (pre ++ [m]) post]

theorem writeList_shape (bs : List Nat) : ∀ (pre mid post : List Nat),
    mid.length = bs.length →
    writeList (pre ++ mid ++ post) pre.length bs = pre ++ bs ++ post := by
  induction bs with
  | nil =>
    intro pre mid post hm
    have hm' : mid = [] := List.length_eq_zero.mp (by simpa using hm)
    subst hm'
    rfl
  | cons b bs ih =>
    intro pre mid post hm
    match mid, hm with
    | m :: mid', hm =>
      have hset : (pre ++ (m :: mid') ++ post).set pre.length b
          = (pre ++ [b]) ++ mid' ++ post := by
        have h2 : pre ++ (m :: mid') ++ post = pre ++ m :: (mid' ++ post) := by simp
        rw [h2, set_at]
        simp
      rw [writeList, hset]
      have harg : pre.length + 1 = (pre ++ [b]).length := by simp
      rw [harg, ih (pre ++ [b]) mid' post (by simpa using hm)]
      simp

theorem cstrRead_spec (t : List Nat) : ∀ (pre rest : List Nat) (L fuel : Nat),
    t.length < fuel → pre.length + fuel ≤ L →
    cstrRead ⟨pre ++ t ++ 0 :: rest, 0, L⟩ (pre.length : Int) fuel
      = some (t.takeWhile (fun b => b != 0)) := by
  induction t with
  | nil =>
    intro pre rest L fuel hfuel hL
    match fuel, hfuel with
    | f + 1, _ =>
      have hck : (0 : Int) ≤ (pre.length : Int) ∧ (pre.length : Int) + 1 ≤ (L : Int) := by
        constructor
        · positivity
        · have : pre.length + 1 ≤ L := by omega
          exact_mod_cast this
      unfold cstrRead
      rw [DataView.getUint8, if_pos hck]
      have hget : (pre ++ [] ++ 0 :: rest).getD (0 + (pre.length : Int).toNat) 0 = 0 := by
        rw [Nat.zero_add, Int.toNat_natCast]
        have := getD_middle pre (0 :: rest) [] 0 0 (by simp)
        simpa using this
      rw [Option.bind_eq_bind, Option.some_bind, hget]
      rfl
  | cons b t' ih =>
    intro pre rest L fuel hfuel hL
    obtain ⟨f, rfl⟩ : ∃ f, fuel = f + 1 := ⟨fuel - 1, by omega⟩
    simp only [List.length_cons] at hfuel
    have hck : (0 : Int) ≤ (pre.length : Int) ∧ (pre.length : Int) + 1 ≤ (L : Int) := by
      constructor
      · positivity
      · have h1 : pre.length + 1 ≤ L := by omega
        exact_mod_cast h1
    unfold cstrRead
    rw [DataView.getUint8, if_pos hck]
    have hget : (pre ++ (b :: t') ++ 0 :: rest).getD (0 + (pre.length : Int).toNat) 0 = b := by
      rw [Nat.zero_add, Int.toNat_natCast]
      have := getD_middle pre (b :: t') (0 :: rest) 0 0 (by simp)
      simpa using this
    rw [Option.bind_eq_bind, Option.some_bind, hget]
    by_cases hb : b = 0
    · subst hb
      simp [List.takeWhile]
    · have hbt : (b != 0) = true := by simp [hb]
      have harg : (pre.length : Int) + 1 = (((pre ++ [b]).length : Nat) : Int) := by simp
      have hshape : pre ++ (b :: t') ++ 0 :: rest = (pre ++ [b]) ++ t' ++ 0 :: rest := by simp
      simp only [hb, if_false]
      rw [harg, hshape, ih (pre ++ [b]) rest L f (by omega)
        (by simp only [List.length_append, List.length_cons, List.length_nil]; omega)]
      rw [List.takeWhile, hbt]
      rfl

theorem takeWhile_of_ne_zero (t : List Nat) (h : ∀ b ∈ t, b ≠ 0) :
    t.takeWhile (fun b => b != 0) = t := by
  induction t with
  | nil => rfl
  | cons b t' ih =>
    have hb : (b != 0) = true := by simpa using h b (by simp)
    have ih' := ih fun x hx => h x (by simp [hx])
    rw [List.takeWhile, hb, ih']

theorem cstrRead_no_zero (fuel : Nat) : ∀ (dv : DataView) (off : Int) (res : List Nat),
    cstrRead dv off fuel = some res → 0 ∉ res := by
  induction fuel with
  | zero =>
    intro dv off res h
    unfold cstrRead at h
    simp at h
    subst h
    simp
  | succ f ih =>
    intro dv off res h
    unfold cstrRead at h
    match hg : dv.getUint8 off with
    | none => rw [hg] at h; simp at h
    | some b =>
      rw [hg] at h
      simp at h
      by_cases hb : b = 0
      · rw [if_pos hb] at h
        simp at h
        subst h
        simp
      · rw [if_neg hb] at h
        match hr : cstrRead dv (off + 1) f with
        | none => rw [hr] at h; simp at h
        | some rest =>
          rw [hr] at h
          simp at h
          subst h
          intro hmem
          rcases List.mem_cons.mp hmem with h0 | h0
          · exact hb h0.symm
          · exact ih dv (off + 1) rest hr h0

/-! ### Byte-arithmetic lemmas -/

theorem natToLE_length (w : Nat) : ∀ x, (natToLE w x).length = w := by
  induction w with
  | zero => intro x; rfl
  | succ w ih => intro x; simp [natToLE, ih]

theorem natToLE_lt (w : Nat) : ∀ x, ∀ b ∈ natToLE w x, b < 256 := by
  induction w with
  | zero => intro x b hb; simp [natToLE] at hb
  | succ w ih =>
    intro x b hb
    simp only [natToLE, List.mem_cons] at hb
    rcases hb with h | h
    · subst h; exact Nat.mod_lt _ (by norm_num)
    · exact ih _ b h

theorem natToLE_zero (w : Nat) : natToLE w 0 = List.replicate w 0 := by
  induction w with
  | zero => rfl
  | succ w ih => simp [natToLE, List.replicate_succ, ih]

theorem leToNat_natToLE (w : Nat) : ∀ x, leToNat (natToLE w x) = x % 2 ^ (8 * w) := by
  induction w with
  | zero => intro x; simp [natToLE, leToNat, Nat.mod_one]
  | succ w ih =>
    intro x
    have hpow : 2 ^ (8 * (w + 1)) = 256 * 2 ^ (8 * w) := by
      rw [Nat.mul_add, pow_add]
      norm_num
      ring
    rw [natToLE, leToNat, ih, hpow, Nat.mod_mul]

theorem splitBytes_length (w : Nat) (v : Int) (le : Bool) : (splitBytes w v le).length = w := by
  unfold splitBytes
  cases le <;> simp [natToLE_length]

theorem splitBytes_lt (w : Nat) (v : Int) (le : Bool) : ∀ b ∈ splitBytes w v le, b < 256 := by
  unfold splitBytes
  cases le <;> simp <;> intro b hb
  · exact natToLE_lt w _ b (by simpa using hb)
  · exact natToLE_lt w _ b hb

theorem emod_pow_toNat_lt (w : Nat) (v : Int) : (v % (2 ^ (8 * w) : Int)).toNat < 2 ^ (8 * w) := by
  have hpos : (0 : Int) < 2 ^ (8 * w) := by positivity
  have h1 : v % (2 ^ (8 * w) : Int) < 2 ^ (8 * w) := Int.emod_lt_of_pos v hpos
  have h2 : (0 : Int) ≤ v % (2 ^ (8 * w) : Int) := Int.emod_nonneg v (by positivity)
  have hc : (((2 : Nat) ^ (8 * w) : Nat) : Int) = (2 : Int) ^ (8 * w) := by push_cast; ring
  omega

theorem combine_splitBytes (w : Nat) (v : Int) (le : Bool) :
    combineBytes le (splitBytes w v le) = (v % (2 ^ (8 * w) : Int)).toNat := by
  have hlt : (v % (2 ^ (8 * w) : Int)).toNat < 2 ^ (8 * w) := emod_pow_toNat_lt w v
  unfold combineBytes splitBytes
  cases le
  · simp only [Bool.false_eq_true, if_false, List.reverse_reverse]
    rw [leToNat_natToLE]
    exact Nat.mod_eq_of_lt hlt
  · simp only [if_true]
    rw [leToNat_natToLE]
    exact Nat.mod_eq_of_lt hlt

theorem splitBytes_zero (w : Nat) (le : Bool) : splitBytes w 0 le = List.replicate w 0 := by
  unfold splitBytes
  have h0 : ((0 : Int) % (2 ^ (8 * w) : Int)).toNat = 0 := by
    simp
  rw [h0, natToLE_zero]
  cases le <;> simp [List.reverse_replicate]

theorem emod_toNat_cast (w : Nat) (v : Int) (h1 : 0 ≤ v) (h2 : v < 2 ^ (8 * w)) :
    ((v % (2 ^ (8 * w) : Int)).toNat : Int) = v := by
  rw [Int.emod_eq_of_lt h1 (by exact_mod_cast h2)]
  exact Int.toNat_of_nonneg h1

theorem toSigned_emod (w : Nat) (v : Int) (hw : 1 ≤ w)
    (h1 : -(2 ^ (8 * w - 1) : Int) ≤ v) (h2 : v < 2 ^ (8 * w - 1)) :
    toSigned w ((v % (2 ^ (8 * w) : Int)).toNat) = v := by
  have hsplit : (2 : Nat) ^ (8 * w) = 2 ^ (8 * w - 1) * 2 := by
    rw [← pow_succ]
    congr 1
    omega
  have hsplitZ : (2 : Int) ^ (8 * w) = 2 ^ (8 * w - 1) * 2 := by
    exact_mod_cast hsplit
  unfold toSigned
  rcases le_or_lt 0 v with hv | hv
  · have hlt : v < (2 ^ (8 * w) : Int) := by omega
    rw [Int.emod_eq_of_lt hv hlt]
    have hcast : ((v.toNat : Int)) = v := Int.toNat_of_nonneg hv
    have hcond : v.toNat < 2 ^ (8 * w - 1) := by
      have : (v.toNat : Int) < (2 ^ (8 * w - 1) : Int) := by omega
      exact_mod_cast this
    rw [if_pos hcond, hcast]
  · have hmod : v % (2 ^ (8 * w) : Int) = v + 2 ^ (8 * w) := by
      have hself : (v + 2 ^ (8 * w) * 1) % (2 ^ (8 * w) : Int) = v % (2 ^ (8 * w) : Int) :=
        Int.add_mul_emod_self_left v _ 1
      have hlo : (0 : Int) ≤ v + 2 ^ (8 * w) := by omega
      have hhi : v + (2 ^ (8 * w) : Int) < 2 ^ (8 * w) := by omega
      rw [mul_one] at hself
      rw [← hself, Int.emod_eq_of_lt hlo hhi]
    rw [hmod]
    have hlo : (0 : Int) ≤ v + 2 ^ (8 * w) := by omega
    have hcast : (((v + 2 ^ (8 * w)).toNat : Int)) = v + 2 ^ (8 * w) := Int.toNat_of_nonneg hlo
    have hcond : ¬ (v + 2 ^ (8 * w)).toNat < 2 ^ (8 * w - 1) := by
      intro hcon
      have : ((v + 2 ^ (8 * w)).toNat : Int) < (2 ^ (8 * w - 1) : Int) := by exact_mod_cast hcon
      omega
    rw [if_neg hcond]
    omega

/-! ### Per-field write lemmas against the fresh zero buffer of `to` -/

theorem replicate_split (n k : Nat) (h : n ≤ k) :
    List.replicate k (0 : Nat) = List.replicate n 0 ++ List.replicate (k - n) 0 := by
  rw [← List.replicate_add]
  congr 1
  omega

theorem replicate_succ_pred (k : Nat) (h : 1 ≤ k) :
    List.replicate k (0 : Nat) = 0 :: List.replicate (k - 1) 0 := by
  cases k with
  | zero => omega
  | succ k => simp [List.replicate_succ]

theorem splitBytes_one (v : Int) (le : Bool) : splitBytes 1 v le = [(v % 256).toNat] := by
  have h1 := emod_pow_toNat_lt 1 v
  norm_num at h1
  have heq : (v % (2 ^ (8 * 1) : Int)).toNat = (v % 256).toNat := by norm_num
  unfold splitBytes natToLE natToLE
  cases le <;> simp [heq] <;> omega

theorem setUint8_zero_tail (n : Int) (pre : List Nat) (ktail : Nat) (h : 1 ≤ ktail) :
    DataView.setUint8 ⟨pre ++ List.replicate ktail 0, 0, pre.length + ktail⟩
        (pre.length : Int) n
      = some ⟨pre ++ (n % 256).toNat :: List.replicate (ktail - 1) 0, 0,
              pre.length + ktail⟩ := by
  have hck : (0 : Int) ≤ (pre.length : Int) ∧
      (pre.length : Int) + 1 ≤ ((pre.length + ktail : Nat) : Int) := by
    constructor
    · positivity
    · push_cast
      omega
  rw [DataView.setUint8, if_pos hck]
  rw [Nat.zero_add, Int.toNat_natCast, replicate_succ_pred ktail h, set_at]

theorem setUintN_zero_tail (w : Nat) (n : Int) (le : Bool) (pre : List Nat) (ktail : Nat)
    (h : w ≤ ktail) :
    DataView.setUintN ⟨pre ++ List.replicate ktail 0, 0, pre.length + ktail⟩ w
        (pre.length : Int) n le
      = some ⟨pre ++ splitBytes w n le ++ List.replicate (ktail - w) 0, 0,
              pre.length + ktail⟩ := by
  have hck : (0 : Int) ≤ (pre.length : Int) ∧
      (pre.length : Int) + w ≤ ((pre.length + ktail : Nat) : Int) := by
    constructor
    · positivity
    · push_cast
      omega
  rw [DataView.setUintN, if_pos hck]
  rw [Nat.zero_add, Int.toNat_natCast, replicate_split w ktail h, ← List.append_assoc]
  rw [writeList_shape _ pre (List.replicate w 0) (List.replicate (ktail - w) 0)
    (by simp [splitBytes_length])]

theorem writeBytesLoop_eq (l : List Nat) : ∀ (n i : Nat) (dv : DataView) (off : Int),
    i + n ≤ l.length →
    writeBytesLoop (.bytes l) dv off i n = writeTextLoop dv off ((l.drop i).take n) := by
  intro n
  induction n with
  | zero => intro i dv off _; simp [writeBytesLoop, writeTextLoop]
  | succ n ih =>
    intro i dv off hle
    have hi : i < l.length := by omega
    rw [writeBytesLoop]
    have helem : Value.elemOr0 (.bytes l) i = some (l.getD i 0) := rfl
    have hgd : l.getD i 0 = l[i] := by
      rw [List.getD_eq_getElem?_getD, List.getElem?_eq_getElem hi]
      rfl
    have hdrop : (l.drop i).take (n + 1) = l[i] :: ((l.drop (i + 1)).take n) := by
      rw [List.drop_eq_getElem_cons hi, List.take_succ_cons]
    rw [helem, Option.bind_eq_bind, Option.some_bind, hdrop, writeTextLoop, hgd]
    match hs : dv.setUint8 off (l[i] : Int) with
    | none => rfl
    | some dv' =>
      simp only [Option.bind_eq_bind, Option.some_bind]
      exact ih (i + 1) dv' (off + 1) (by omega)

theorem kindWrite_spec (k : FieldKind) (v : Value) (le : Bool) (pre : List Nat) (ktail : Nat)
    (hconf : k.conforms v = true) (hsz : k.size ≤ ktail) :
    k.toFieldType.write ⟨pre ++ List.replicate ktail 0, 0, pre.length + ktail⟩
        (pre.length : Int) v le
      = some ⟨pre ++ k.slotBytes le v ++ List.replicate (ktail - k.size) 0, 0,
              pre.length + ktail⟩ := by
  cases k with
  | u8 =>
    cases v <;> simp only [FieldKind.conforms, Bool.and_eq_true, decide_eq_true_eq,
      Bool.false_eq_true, List.all_eq_true] at hconf
    case num n =>
    have hsz1 : 1 ≤ ktail := hsz
    simp only [FieldKind.toFieldType, uint8, Value.toNumInt, Option.bind_eq_bind,
      Option.some_bind]
    rw [setUint8_zero_tail n pre ktail hsz1]
    simp [FieldKind.slotBytes, FieldKind.size, FieldKind.toFieldType, uint8, splitBytes_one]
  | i8 =>
    cases v <;> simp only [FieldKind.conforms, Bool.and_eq_true, decide_eq_true_eq,
      Bool.false_eq_true, List.all_eq_true] at hconf
    case num n =>
    have hsz1 : 1 ≤ ktail := hsz
    simp only [FieldKind.toFieldType, int8, Value.toNumInt, Option.bind_eq_bind,
      Option.some_bind]
    rw [setUint8_zero_tail n pre ktail hsz1]
    simp [FieldKind.slotBytes, FieldKind.size, FieldKind.toFieldType, int8, splitBytes_one]
  | u16 =>
    cases v <;> simp only [FieldKind.conforms, Bool.and_eq_true, decide_eq_true_eq,
      Bool.false_eq_true, List.all_eq_true] at hconf
    case num n =>
    simp only [FieldKind.toFieldType, uint16, Value.toNumInt, Option.bind_eq_bind,
      Option.some_bind]
    rw [setUintN_zero_tail 2 n le pre ktail hsz]
    rfl
  | i16 =>
    cases v <;> simp only [FieldKind.conforms, Bool.and_eq_true, decide_eq_true_eq,
      Bool.false_eq_true, List.all_eq_true] at hconf
    case num n =>
    simp only [FieldKind.toFieldType, int16, Value.toNumInt, Option.bind_eq_bind,
      Option.some_bind]
    rw [setUintN_zero_tail 2 n le pre ktail hsz]
    rfl
  | u32 =>
    cases v <;> simp only [FieldKind.conforms, Bool.and_eq_true, decide_eq_true_eq,
      Bool.false_eq_true, List.all_eq_true] at hconf
    case num n =>
    simp only [FieldKind.toFieldType, uint32, Value.toNumInt, Option.bind_eq_bind,
      Option.some_bind]
    rw [setUintN_zero_tail 4 n le pre ktail hsz]
    rfl
  | i32 =>
    cases v <;> simp only [FieldKind.conforms, Bool.and_eq_true, decide_eq_true_eq,
      Bool.false_eq_true, List.all_eq_true] at hconf
    case num n =>
    simp only [FieldKind.toFieldType, int32, Value.toNumInt, Option.bind_eq_bind,
      Option.some_bind]
    rw [setUintN_zero_tail 4 n le pre ktail hsz]
    rfl
  | u64 =>
    cases v <;> simp only [FieldKind.conforms, Bool.and_eq_true, decide_eq_true_eq,
      Bool.false_eq_true, List.all_eq_true] at hconf
    case big n =>
    simp only [FieldKind.toFieldType, uint64, Value.toBigIntVal, Option.bind_eq_bind,
      Option.some_bind]
    rw [setUintN_zero_tail 8 n le pre ktail hsz]
    rfl
  | i64 =>
    cases v <;> simp only [FieldKind.conforms, Bool.and_eq_true, decide_eq_true_eq,
      Bool.false_eq_true, List.all_eq_true] at hconf
    case big n =>
    simp only [FieldKind.toFieldType, int64, Value.toBigIntVal, Option.bind_eq_bind,
      Option.some_bind]
    rw [setUintN_zero_tail 8 n le pre ktail hsz]
    rfl
  | bytesK m =>
    cases v <;> simp only [FieldKind.conforms, Bool.and_eq_true, decide_eq_true_eq,
      Bool.false_eq_true, List.all_eq_true] at hconf
    case bytes l =>
    obtain ⟨hlen, hlt⟩ := hconf
    have hszm : m ≤ ktail := hsz
    simp only [FieldKind.toFieldType, bytes]
    rw [writeBytesLoop_eq l m 0 _ _ (by omega)]
    simp only [List.drop_zero]
    have htake : l.take m = l := by rw [← hlen, List.take_length]
    rw [htake, replicate_split m ktail hszm, ← List.append_assoc]
    rw [writeTextLoop_spec l pre (List.replicate m 0) (List.replicate (ktail - m) 0)
      (pre.length + ktail) (by simp [hlen]) hlt (by simp [hlen]; omega)]
    rfl
  | textK m =>
    cases v <;> simp only [FieldKind.conforms, Bool.and_eq_true, decide_eq_true_eq,
      Bool.false_eq_true, List.all_eq_true] at hconf
    case str s =>
    obtain ⟨hlen, hlt⟩ := hconf
    have hszm : m ≤ ktail := hsz
    simp only [FieldKind.toFieldType, string, Value.toTextBytes, Option.bind_eq_bind,
      Option.some_bind]
    have hmin : min s.length m = m := by omega
    rw [hmin]
    have htake : s.take m = s := by rw [← hlen, List.take_length]
    rw [htake, replicate_split m ktail hszm, ← List.append_assoc]
    rw [writeTextLoop_spec s pre (List.replicate m 0) (List.replicate (ktail - m) 0)
      (pre.length + ktail) (by simp [hlen]) hlt (by simp [hlen]; omega)]
    simp only [Option.bind_eq_bind, Option.some_bind]
    have hmm : m - m = 0 := by omega
    rw [hmm, List.replicate_zero, writeTextLoop]
    rfl
  | czK m =>
    cases v <;> simp only [FieldKind.conforms, Bool.and_eq_true, decide_eq_true_eq,
      Bool.false_eq_true, List.all_eq_true] at hconf
    case str s =>
    obtain ⟨hlen, hprop⟩ := hconf
    have hszm : m ≤ ktail := hsz
    have hlt : ∀ b ∈ s, b < 256 := fun b hb => (hprop b hb).2
    simp only [FieldKind.toFieldType, cstring, Value.toTextBytes, Option.bind_eq_bind,
      Option.some_bind]
    have hminI : min ((s.length : Nat) : Int) ((m : Int) - 1) = ((s.length : Nat) : Int) := by
      have h2 : (s.length : Int) ≤ (m : Int) - 1 := by omega
      omega
    rw [hminI]
    have htoNat : ((s.length : Nat) : Int).toNat = s.length := Int.toNat_natCast _
    rw [htoNat, List.take_length, replicate_split s.length ktail (by omega),
      ← List.append_assoc]
    rw [writeTextLoop_spec s pre (List.replicate s.length 0)
      (List.replicate (ktail - s.length) 0) (pre.length + ktail) (by simp)
      hlt (by simp; omega)]
    simp only [Option.bind_eq_bind, Option.some_bind]
    have harg : (pre.length : Int) + ((s.length : Nat) : Int)
        = (((pre ++ s).length : Nat) : Int) := by
      simp
    rw [harg]
    have hset : DataView.setUint8
        ⟨pre ++ s ++ List.replicate (ktail - s.length) 0, 0, pre.length + ktail⟩
        (((pre ++ s).length : Nat) : Int) 0
        = some ⟨pre ++ s ++ List.replicate (ktail - s.length) 0, 0, pre.length + ktail⟩ := by
      have hck : (0 : Int) ≤ (((pre ++ s).length : Nat) : Int) ∧
          (((pre ++ s).length : Nat) : Int) + 1 ≤ ((pre.length + ktail : Nat) : Int) := by
        constructor
        · positivity
        · push_cast
          omega
      rw [DataView.setUint8, if_pos hck]
      congr 1
      rw [Nat.zero_add, Int.toNat_natCast,
        replicate_succ_pred (ktail - s.length) (by omega)]
      have hassoc : pre ++ s ++ 0 :: List.replicate (ktail - s.length - 1) 0
          = (pre ++ s) ++ 0 :: List.replicate (ktail - s.length - 1) 0 := by simp
      rw [hassoc, set_at]
      simp
    rw [hset]
    simp only [FieldKind.slotBytes, FieldKind.size, FieldKind.toFieldType, cstring]
    have hrep : List.replicate (ktail - s.length) (0 : Nat)
        = List.replicate (m - s.length) 0 ++ List.replicate (ktail - m) 0 := by
      rw [← List.replicate_add]
      congr 1
      omega
    rw [hrep]
    simp [List.append_assoc]

/-! ### Per-field parse lemmas against the slot bytes a write laid down -/

theorem slotBytes_length (k : FieldKind) (v : Value) (le : Bool)
    (hconf : k.conforms v = true) : (k.slotBytes le v).length = k.size := by
  cases k <;> cases v <;> simp only [FieldKind.conforms, Bool.and_eq_true, decide_eq_true_eq,
    Bool.false_eq_true, List.all_eq_true] at hconf <;>
    simp [FieldKind.slotBytes, FieldKind.size, FieldKind.toFieldType, bytes, uint8, uint16,
      uint32, uint64, int8, int16, int32, int64, string, cstring, splitBytes_length] <;>
    omega

theorem getUint8_middle (pre post : List Nat) (x : Nat) :
    DataView.getUint8 ⟨pre ++ [x] ++ post, 0, (pre ++ [x] ++ post).length⟩
      (pre.length : Int) = some x := by
  have hck : (0 : Int) ≤ (pre.length : Int) ∧
      (pre.length : Int) + 1 ≤ (((pre ++ [x] ++ post).length : Nat) : Int) := by
    constructor
    · positivity
    · simp only [List.length_append, List.length_cons]
      push_cast
      omega
  rw [DataView.getUint8, if_pos hck, Nat.zero_add, Int.toNat_natCast]
  have := getD_middle pre [x] post 0 0 (by simp)
  simp only [Nat.add_zero] at this
  rw [this]
  rfl

theorem getUintN_slot (w : Nat) (n : Int) (le : Bool) (pre post : List Nat) :
    DataView.getUintN
      ⟨pre ++ splitBytes w n le ++ post, 0, (pre ++ splitBytes w n le ++ post).length⟩
      w (pre.length : Int) le = some ((n % ((2 : Int) ^ (8 * w))).toNat) := by
  have hck : (0 : Int) ≤ (pre.length : Int) ∧
      (pre.length : Int) + w ≤ (((pre ++ splitBytes w n le ++ post).length : Nat) : Int) := by
    constructor
    · positivity
    · simp only [List.length_append, splitBytes_length]
      push_cast
      omega
  rw [DataView.getUintN, if_pos hck, Nat.zero_add, Int.toNat_natCast]
  have hr : readList (pre ++ splitBytes w n le ++ post) pre.length w = splitBytes w n le := by
    have := readList_spec (splitBytes w n le) pre post
    rwa [splitBytes_length] at this
  rw [hr, combine_splitBytes]

theorem kindParse_spec (k : FieldKind) (v : Value) (le : Bool) (pre post : List Nat)
    (hconf : k.conforms v = true) :
    k.toFieldType.parse
      ⟨pre ++ k.slotBytes le v ++ post, 0, (pre ++ k.slotBytes le v ++ post).length⟩
      (pre.length : Int) le = some v := by
  cases k with
  | u8 =>
    cases v <;> simp only [FieldKind.conforms, Bool.and_eq_true, decide_eq_true_eq,
      Bool.false_eq_true, List.all_eq_true] at hconf
    case num n =>
    simp only [FieldKind.toFieldType, uint8, FieldKind.slotBytes, splitBytes_one]
    rw [getUint8_middle]
    have hval : (((n % 256).toNat : Nat) : Int) = n := by omega
    simp only [Option.bind_eq_bind, Option.some_bind, Option.pure_def, Option.map_some', hval]
  | i8 =>
    cases v <;> simp only [FieldKind.conforms, Bool.and_eq_true, decide_eq_true_eq,
      Bool.false_eq_true, List.all_eq_true] at hconf
    case num n =>
    simp only [FieldKind.toFieldType, int8, FieldKind.slotBytes, splitBytes_one]
    rw [getUint8_middle]
    try simp only [Option.map_some']
    congr 1
    have h256 : (n % (256 : Int)).toNat = (n % ((2 : Int) ^ (8 * 1))).toNat := by norm_num
    rw [h256, toSigned_emod 1 n (by norm_num) (by norm_num; omega) (by norm_num; omega)]
  | u16 =>
    cases v <;> simp only [FieldKind.conforms, Bool.and_eq_true, decide_eq_true_eq,
      Bool.false_eq_true, List.all_eq_true] at hconf
    case num n =>
    simp only [FieldKind.toFieldType, uint16, FieldKind.slotBytes]
    rw [getUintN_slot]
    have hval : ((((n % ((2 : Int) ^ (8 * 2))).toNat : Nat)) : Int) = n :=
      emod_toNat_cast 2 n hconf.1 (by exact_mod_cast hconf.2)
    simp only [Option.bind_eq_bind, Option.some_bind, Option.pure_def, Option.map_some', hval]
  | i16 =>
    cases v <;> simp only [FieldKind.conforms, Bool.and_eq_true, decide_eq_true_eq,
      Bool.false_eq_true, List.all_eq_true] at hconf
    case num n =>
    simp only [FieldKind.toFieldType, int16, FieldKind.slotBytes]
    rw [getUintN_slot]
    try simp only [Option.map_some']
    congr 1
    rw [toSigned_emod 2 n (by norm_num) (by norm_num; omega) (by norm_num; omega)]
  | u32 =>
    cases v <;> simp only [FieldKind.conforms, Bool.and_eq_true, decide_eq_true_eq,
      Bool.false_eq_true, List.all_eq_true] at hconf
    case num n =>
    simp only [FieldKind.toFieldType, uint32, FieldKind.slotBytes]
    rw [getUintN_slot]
    have hval : ((((n % ((2 : Int) ^ (8 * 4))).toNat : Nat)) : Int) = n :=
      emod_toNat_cast 4 n hconf.1 (by exact_mod_cast hconf.2)
    simp only [Option.bind_eq_bind, Option.some_bind, Option.pure_def, Option.map_some', hval]
  | i32 =>
    cases v <;> simp only [FieldKind.conforms, Bool.and_eq_true, decide_eq_true_eq,
      Bool.false_eq_true, List.all_eq_true] at hconf
    case num n =>
    simp only [FieldKind.toFieldType, int32, FieldKind.slotBytes]
    rw [getUintN_slot]
    try simp only [Option.map_some']
    congr 1
    rw [toSigned_emod 4 n (by norm_num) (by norm_num; omega) (by norm_num; omega)]
  | u64 =>
    cases v <;> simp only [FieldKind.conforms, Bool.and_eq_true, decide_eq_true_eq,
      Bool.false_eq_true, List.all_eq_true] at hconf
    case big n =>
    simp only [FieldKind.toFieldType, uint64, FieldKind.slotBytes]
    rw [getUintN_slot]
    have hval : ((((n % ((2 : Int) ^ (8 * 8))).toNat : Nat)) : Int) = n :=
      emod_toNat_cast 8 n hconf.1 (by exact_mod_cast hconf.2)
    simp only [Option.bind_eq_bind, Option.some_bind, Option.pure_def, Option.map_some', hval]
  | i64 =>
    cases v <;> simp only [FieldKind.conforms, Bool.and_eq_true, decide_eq_true_eq,
      Bool.false_eq_true, List.all_eq_true] at hconf
    case big n =>
    simp only [FieldKind.toFieldType, int64, FieldKind.slotBytes]
    rw [getUintN_slot]
    try simp only [Option.map_some']
    congr 1
    rw [toSigned_emod 8 n (by norm_num) (by norm_num; omega) (by norm_num; omega)]
  | bytesK m =>
    cases v <;> simp only [FieldKind.conforms, Bool.and_eq_true, decide_eq_true_eq,
      Bool.false_eq_true, List.all_eq_true] at hconf
    case bytes l =>
    obtain ⟨hlen, hlt⟩ := hconf
    simp only [FieldKind.toFieldType, bytes, FieldKind.slotBytes]
    have hr : readBytesLoop ⟨pre ++ l ++ post, 0, (pre ++ l ++ post).length⟩
        (pre.length : Int) m = some l := by
      have := readBytesLoop_spec l pre post (pre ++ l ++ post).length (by simp)
      rwa [hlen] at this
    rw [hr]
    rfl
  | textK m =>
    cases v <;> simp only [FieldKind.conforms, Bool.and_eq_true, decide_eq_true_eq,
      Bool.false_eq_true, List.all_eq_true] at hconf
    case str s =>
    obtain ⟨hlen, hlt⟩ := hconf
    simp only [FieldKind.toFieldType, string, FieldKind.slotBytes]
    have hck : (0 : Int) ≤ (pre.length : Int) ∧
        (pre.length : Int) + m ≤ (((pre ++ s ++ post).length : Nat) : Int) := by
      constructor
      · positivity
      · simp only [List.length_append]
        push_cast
        omega
    rw [if_pos hck]
    congr 2
    rw [Int.toNat_natCast]
    have hdrop : (pre ++ s ++ post).drop pre.length = s ++ post := by
      rw [List.append_assoc, List.drop_left]
    rw [hdrop, ← hlen, List.take_left]
  | czK m =>
    cases v <;> simp only [FieldKind.conforms, Bool.and_eq_true, decide_eq_true_eq,
      Bool.false_eq_true, List.all_eq_true] at hconf
    case str s =>
    obtain ⟨hlen, hprop⟩ := hconf
    simp only [FieldKind.toFieldType, cstring, FieldKind.slotBytes]
    have hshape : pre ++ (s ++ List.replicate (m - s.length) 0) ++ post
        = pre ++ s ++ 0 :: (List.replicate (m - s.length - 1) 0 ++ post) := by
      rw [replicate_succ_pred (m - s.length) (by omega)]
      simp
    have hfuel : s.length < m := by omega
    have hL : pre.length + m ≤ (pre ++ (s ++ List.replicate (m - s.length) 0) ++ post).length := by
      simp only [List.length_append, List.length_replicate]
      omega
    have := cstrRead_spec s pre (List.replicate (m - s.length - 1) 0 ++ post)
      (pre ++ (s ++ List.replicate (m - s.length) 0) ++ post).length m hfuel hL
    rw [← hshape] at this
    rw [this, takeWhile_of_ne_zero s (fun b hb => (hprop b hb).1)]
    rfl

/-! ### Whole-struct composition lemmas -/

theorem lookupValue_cons_eq (n : String) (v : Value) (r : Record) :
    lookupValue ((n, v) :: r) n = v := by
  simp [lookupValue, List.find?]

theorem lookupValue_cons_ne (m n : String) (v : Value) (r : Record) (h : m ≠ n) :
    lookupValue ((m, v) :: r) n = lookupValue r n := by
  simp [lookupValue, List.find?, h]

theorem kindsTotal_cons (n : String) (k : FieldKind) (kinds : List (String × FieldKind)) :
    kindsTotal ((n, k) :: kinds) = k.size + kindsTotal kinds := by
  simp [kindsTotal]

theorem slotsConcat_cons (n : String) (k : FieldKind) (kinds : List (String × FieldKind))
    (r : Record) (le : Bool) :
    slotsConcat ((n, k) :: kinds) r le
      = k.slotBytes le (lookupValue r n) ++ slotsConcat kinds r le := by
  simp [slotsConcat]

theorem writeFields_kinds (r : Record) (le : Bool) (kinds : List (String × FieldKind)) :
    ∀ (pre : List Nat) (ktail : Nat),
    (∀ p ∈ kinds, p.2.conforms (lookupValue r p.1) = true) →
    kindsTotal kinds ≤ ktail →
    writeFields le (kindFields kinds) ⟨pre ++ List.replicate ktail 0, 0, pre.length + ktail⟩
        pre.length r
      = some ⟨pre ++ slotsConcat kinds r le ++ List.replicate (ktail - kindsTotal kinds) 0,
              0, pre.length + ktail⟩ := by
  induction kinds with
  | nil =>
    intro pre ktail _ _
    simp [writeFields, kindFields, slotsConcat, kindsTotal]
  | cons hd kinds' ih =>
    obtain ⟨n, k⟩ := hd
    intro pre ktail hconf hsz
    have hk : k.conforms (lookupValue r n) = true := hconf (n, k) (by simp)
    rw [kindsTotal_cons] at hsz
    have hsz1 : k.size ≤ ktail := by omega
    have hkf : kindFields ((n, k) :: kinds') = (n, k.toFieldType) :: kindFields kinds' := rfl
    rw [hkf, writeFields, kindWrite_spec k _ le pre ktail hk hsz1]
    simp only [Option.bind_eq_bind, Option.some_bind]
    have hslotlen : (k.slotBytes le (lookupValue r n)).length = k.size :=
      slotBytes_length k _ le hk
    have hstep := ih (pre ++ k.slotBytes le (lookupValue r n)) (ktail - k.size)
      (fun p hp => hconf p (by simp [hp])) (by omega)
    have hview : (pre ++ k.slotBytes le (lookupValue r n)).length + (ktail - k.size)
        = pre.length + ktail := by
      simp only [List.length_append, hslotlen]
      omega
    have haccE : (pre ++ k.slotBytes le (lookupValue r n)).length
        = pre.length + k.toFieldType.size := by
      simp only [List.length_append, hslotlen]
      rfl
    rw [hview, haccE] at hstep
    rw [hstep, slotsConcat_cons, kindsTotal_cons]
    have hrepc : (ktail - k.size) - kindsTotal kinds'
        = ktail - (k.size + kindsTotal kinds') := by omega
    rw [hrepc]
    simp [List.append_assoc]

theorem parseFields_kinds (r : Record) (le : Bool) (kinds : List (String × FieldKind)) :
    ∀ (pre post : List Nat),
    (∀ p ∈ kinds, p.2.conforms (lookupValue r p.1) = true) →
    parseFields ⟨pre ++ slotsConcat kinds r le ++ post, 0,
        (pre ++ slotsConcat kinds r le ++ post).length⟩ 0 le (kindFields kinds) pre.length
      = some (recOf kinds r) := by
  induction kinds with
  | nil =>
    intro pre post _
    simp [parseFields, kindFields, recOf]
  | cons hd kinds' ih =>
    obtain ⟨n, k⟩ := hd
    intro pre post hconf
    have hk : k.conforms (lookupValue r n) = true := hconf (n, k) (by simp)
    have hslotlen : (k.slotBytes le (lookupValue r n)).length = k.size :=
      slotBytes_length k _ le hk
    have hkf : kindFields ((n, k) :: kinds') = (n, k.toFieldType) :: kindFields kinds' := rfl
    have hshape : pre ++ slotsConcat ((n, k) :: kinds') r le ++ post
        = pre ++ k.slotBytes le (lookupValue r n) ++ (slotsConcat kinds' r le ++ post) := by
      rw [slotsConcat_cons]
      simp [List.append_assoc]
    rw [hkf, parseFields, hshape]
    have hoff : (0 : Int) + (pre.length : Int) = (pre.length : Int) := by omega
    rw [hoff, kindParse_spec k _ le pre (slotsConcat kinds' r le ++ post) hk]
    simp only [Option.bind_eq_bind, Option.some_bind]
    have hstep := ih (pre ++ k.slotBytes le (lookupValue r n)) post
      (fun p hp => hconf p (by simp [hp]))
    have haccE : (pre ++ k.slotBytes le (lookupValue r n)).length
        = pre.length + k.toFieldType.size := by
      simp only [List.length_append, hslotlen]
      rfl
    rw [haccE] at hstep
    have hshape2 : (pre ++ k.slotBytes le (lookupValue r n)) ++ slotsConcat kinds' r le ++ post
        = pre ++ k.slotBytes le (lookupValue r n) ++ (slotsConcat kinds' r le ++ post) := by
      simp [List.append_assoc]
    rw [hshape2] at hstep
    rw [hstep]
    rfl

theorem foldl_size_acc (fields : Fields) : ∀ acc : Nat,
    List.foldl (fun a f => a + f.2.size) acc fields
      = acc + (fields.map fun f => f.2.size).sum := by
  induction fields with
  | nil => intro acc; simp
  | cons f fields ih =>
    intro acc
    simp only [List.foldl_cons, List.map_cons, List.sum_cons]
    rw [ih]
    omega

theorem totalSize_eq_sum (fields : Fields) :
    totalSize fields = (fields.map fun f => f.2.size).sum := by
  unfold totalSize
  rw [foldl_size_acc]
  omega

theorem totalSize_kindFields (kinds : List (String × FieldKind)) :
    totalSize (kindFields kinds) = kindsTotal kinds := by
  rw [totalSize_eq_sum]
  unfold kindFields kindsTotal
  rw [List.map_map]
  rfl

theorem slotsConcat_length (kinds : List (String × FieldKind)) (r : Record) (le : Bool)
    (hconf : ∀ p ∈ kinds, p.2.conforms (lookupValue r p.1) = true) :
    (slotsConcat kinds r le).length = kindsTotal kinds := by
  induction kinds with
  | nil => rfl
  | cons hd kinds' ih =>
    obtain ⟨n, k⟩ := hd
    rw [slotsConcat_cons, kindsTotal_cons, List.length_append,
      slotBytes_length k _ le (hconf (n, k) (by simp)),
      ih (fun p hp => hconf p (by simp [hp]))]

/-- `from(to(r))` for a record conforming to a struct built from the built-in
field kinds: `to` succeeds with a buffer of exactly the struct's size, and
`from` over that buffer returns the declared fields with the values looked
up from `r`. -/
theorem roundtrip_kinds (name : String) (opt : Option Bool)
    (kinds : List (String × FieldKind)) (r : Record)
    (hconf : ∀ p ∈ kinds, p.2.conforms (lookupValue r p.1) = true) :
    ∃ buf : List Nat,
      (struct name (kindFields kinds) opt).to r = some buf ∧
      buf.length = (struct name (kindFields kinds) opt).size ∧
      (struct name (kindFields kinds) opt).fromBuffer (.arrayBuffer buf) 0
        = some (recOf kinds r) := by
  set le := (struct name (kindFields kinds) opt).littleEndian with hle
  refine ⟨slotsConcat kinds r le, ?_, ?_, ?_⟩
  · unfold StructDef.to
    have hsize : (struct name (kindFields kinds) opt).size = kindsTotal kinds := by
      unfold StructDef.size struct
      exact totalSize_kindFields kinds
    rw [hsize]
    have hw := writeFields_kinds r le kinds [] (kindsTotal kinds) hconf (le_refl _)
    simp only [List.nil_append, List.length_nil, Nat.zero_add, Nat.sub_self,
      List.replicate_zero, List.append_nil] at hw
    have hfields : (struct name (kindFields kinds) opt).fields = kindFields kinds := rfl
    rw [hfields, hw]
    rfl
  · rw [slotsConcat_length kinds r le hconf]
    unfold StructDef.size struct
    exact (totalSize_kindFields kinds).symm
  · unfold StructDef.fromBuffer JSBuffer.toDataView
    have hp := parseFields_kinds r le kinds [] [] hconf
    simp only [List.nil_append, List.length_nil, List.append_nil] at hp
    exact hp

/-- When `r` lists exactly the declared field names, in order and without
duplicates, the record `from` reassembles is `r` itself. -/
theorem recOf_eq (kinds : List (String × FieldKind)) : ∀ r : Record,
    r.map Prod.fst = kinds.map Prod.fst → (kinds.map Prod.fst).Nodup →
    recOf kinds r = r := by
  induction kinds with
  | nil =>
    intro r hnames _
    simp only [List.map_nil, List.map_eq_nil_iff] at hnames
    subst hnames
    rfl
  | cons hd kinds' ih =>
    obtain ⟨n, k⟩ := hd
    intro r hnames hnodup
    match r, hnames with
    | (n', v) :: r', hnames =>
      simp only [List.map_cons, List.cons.injEq] at hnames
      obtain ⟨hn, hrest⟩ := hnames
      subst hn
      simp only [List.map_cons, List.nodup_cons] at hnodup
      unfold recOf
      simp only [List.map_cons]
      rw [lookupValue_cons_eq]
      congr 1
      have hlook : ∀ p ∈ kinds', lookupValue ((n', v) :: r') p.1 = lookupValue r' p.1 := by
        intro p hp
        apply lookupValue_cons_ne
        intro hEq
        apply hnodup.1
        rw [hEq]
        exact List.mem_map_of_mem Prod.fst hp
      have : (kinds'.map fun p => (p.1, lookupValue ((n', v) :: r') p.1))
          = kinds'.map fun p => (p.1, lookupValue r' p.1) := by
        apply List.map_congr_left
        intro p hp
        rw [hlook p hp]
      rw [this]
      exact ih r' hrest hnodup.2

/-! ### In-range parses succeed (no entry bounds check is needed for that) -/

theorem readBytesLoop_isSome (dv : DataView) : ∀ (m : Nat) (off : Int),
    0 ≤ off → off + m ≤ (dv.viewLen : Int) → (readBytesLoop dv off m).isSome := by
  intro m
  induction m with
  | zero => intro off _ _; rfl
  | succ m ih =>
    intro off h0 hm
    rw [readBytesLoop, DataView.getUint8, if_pos ⟨h0, by push_cast at hm ⊢; omega⟩]
    simp only [Option.bind_eq_bind, Option.some_bind]
    have hrec := ih (off + 1) (by omega) (by push_cast at hm ⊢; omega)
    match hr : readBytesLoop dv (off + 1) m with
    | some l => rfl
    | none => rw [hr] at hrec; simp at hrec

theorem cstrRead_isSome (dv : DataView) : ∀ (m : Nat) (off : Int),
    0 ≤ off → off + m ≤ (dv.viewLen : Int) → (cstrRead dv off m).isSome := by
  intro m
  induction m with
  | zero => intro off _ _; rfl
  | succ m ih =>
    intro off h0 hm
    rw [cstrRead, DataView.getUint8, if_pos ⟨h0, by push_cast at hm ⊢; omega⟩]
    simp only [Option.bind_eq_bind, Option.some_bind]
    by_cases hb : dv.data.getD (dv.viewOffset + off.toNat) 0 = 0
    · rw [if_pos hb]
      rfl
    · rw [if_neg hb]
      have hrec := ih (off + 1) (by omega) (by push_cast at hm ⊢; omega)
      match hr : cstrRead dv (off + 1) m with
      | some l => rfl
      | none => rw [hr] at hrec; simp at hrec

theorem kindParse_isSome (k : FieldKind) (dv : DataView) (off : Int) (le : Bool)
    (hwf : dv.wf) (h0 : 0 ≤ off) (hsz : off + k.size ≤ (dv.viewLen : Int)) :
    (k.toFieldType.parse dv off le).isSome := by
  cases k with
  | bytesK m =>
    simp only [FieldKind.toFieldType, bytes]
    have := readBytesLoop_isSome dv m off h0 hsz
    match hr : readBytesLoop dv off m with
    | some l => simp
    | none => rw [hr] at this; simp at this
  | u8 =>
    have hck : 0 ≤ off ∧ off + (1 : Int) ≤ ((dv.viewLen : Nat) : Int) := ⟨h0, by exact_mod_cast hsz⟩
    simp only [FieldKind.toFieldType, uint8, DataView.getUint8]
    rw [if_pos hck]
    rfl
  | i8 =>
    have hck : 0 ≤ off ∧ off + (1 : Int) ≤ ((dv.viewLen : Nat) : Int) := ⟨h0, by exact_mod_cast hsz⟩
    simp only [FieldKind.toFieldType, int8, DataView.getUint8]
    rw [if_pos hck]
    rfl
  | u16 =>
    have hck : 0 ≤ off ∧ off + ((2 : Nat) : Int) ≤ ((dv.viewLen : Nat) : Int) := ⟨h0, by exact_mod_cast hsz⟩
    simp only [FieldKind.toFieldType, uint16, DataView.getUintN]
    rw [if_pos hck]
    rfl
  | i16 =>
    have hck : 0 ≤ off ∧ off + ((2 : Nat) : Int) ≤ ((dv.viewLen : Nat) : Int) := ⟨h0, by exact_mod_cast hsz⟩
    simp only [FieldKind.toFieldType, int16, DataView.getUintN]
    rw [if_pos hck]
    rfl
  | u32 =>
    have hck : 0 ≤ off ∧ off + ((4 : Nat) : Int) ≤ ((dv.viewLen : Nat) : Int) := ⟨h0, by exact_mod_cast hsz⟩
    simp only [FieldKind.toFieldType, uint32, DataView.getUintN]
    rw [if_pos hck]
    rfl
  | i32 =>
    have hck : 0 ≤ off ∧ off + ((4 : Nat) : Int) ≤ ((dv.viewLen : Nat) : Int) := ⟨h0, by exact_mod_cast hsz⟩
    simp only [FieldKind.toFieldType, int32, DataView.getUintN]
    rw [if_pos hck]
    rfl
  | u64 =>
    have hck : 0 ≤ off ∧ off + ((8 : Nat) : Int) ≤ ((dv.viewLen : Nat) : Int) := ⟨h0, by exact_mod_cast hsz⟩
    simp only [FieldKind.toFieldType, uint64, DataView.getUintN]
    rw [if_pos hck]
    rfl
  | i64 =>
    have hck : 0 ≤ off ∧ off + ((8 : Nat) : Int) ≤ ((dv.viewLen : Nat) : Int) := ⟨h0, by exact_mod_cast hsz⟩
    simp only [FieldKind.toFieldType, int64, DataView.getUintN]
    rw [if_pos hck]
    rfl
  | textK m =>
    have hszm : off + (m : Int) ≤ ((dv.viewLen : Nat) : Int) := by
      have hs : (FieldKind.textK m).size = m := rfl
      rw [hs] at hsz
      exact hsz
    have hck : 0 ≤ off ∧ off + m ≤ ((dv.data.length : Nat) : Int) := by
      constructor
      · exact h0
      · have hlen : dv.viewLen ≤ dv.data.length := by
          have := hwf
          unfold DataView.wf at this
          omega
        have : ((dv.viewLen : Nat) : Int) ≤ ((dv.data.length : Nat) : Int) := by
          exact_mod_cast hlen
        omega
    simp only [FieldKind.toFieldType, string, if_pos hck]
    rfl
  | czK m =>
    simp only [FieldKind.toFieldType, cstring]
    have := cstrRead_isSome dv m off h0 hsz
    match hr : cstrRead dv off m with
    | some l => simp
    | none => rw [hr] at this; simp at this

theorem parseFields_isSome (le : Bool) (dv : DataView) (off : Int) (hwf : dv.wf)
    (h0 : 0 ≤ off) (kinds : List (String × FieldKind)) : ∀ (acc : Nat),
    off + acc + kindsTotal kinds ≤ (dv.viewLen : Int) →
    (parseFields dv off le (kindFields kinds) acc).isSome := by
  induction kinds with
  | nil => intro acc _; rfl
  | cons hd kinds' ih =>
    obtain ⟨n, k⟩ := hd
    intro acc hacc
    rw [kindsTotal_cons] at hacc
    push_cast at hacc
    have hkf : kindFields ((n, k) :: kinds') = (n, k.toFieldType) :: kindFields kinds' := rfl
    rw [hkf, parseFields]
    have hhead := kindParse_isSome k dv (off + acc) le hwf (by positivity)
      (by omega)
    match hp : k.toFieldType.parse dv (off + acc) le with
    | none => rw [hp] at hhead; simp at hhead
    | some v =>
      simp only [Option.bind_eq_bind, Option.some_bind]
      have hrec := ih (acc + k.toFieldType.size)
        (by
          have hks : k.toFieldType.size = k.size := rfl
          rw [hks]
          omega)
      match hr : parseFields dv off le (kindFields kinds') (acc + k.toFieldType.size) with
      | some l => rfl
      | none => rw [hr] at hrec; simp at hrec

/-! ### Missing keys: what `to` writes for an `undefined` field value -/

theorem kindWrite_undef (k : FieldKind) (le : Bool) (pre : List Nat) (ktail : Nat)
    (hk : k.undefWritesZero = true) (hsz : k.size ≤ ktail) :
    k.toFieldType.write ⟨pre ++ List.replicate ktail 0, 0, pre.length + ktail⟩
        (pre.length : Int) .undef le
      = some ⟨pre ++ List.replicate ktail 0, 0, pre.length + ktail⟩ := by
  cases k with
  | bytesK m => simp [FieldKind.undefWritesZero] at hk
  | u64 => simp [FieldKind.undefWritesZero] at hk
  | i64 => simp [FieldKind.undefWritesZero] at hk
  | u8 =>
    have hsz1 : 1 ≤ ktail := hsz
    simp only [FieldKind.toFieldType, uint8, Value.toNumInt, Option.bind_eq_bind,
      Option.some_bind]
    rw [setUint8_zero_tail 0 pre ktail hsz1]
    rw [replicate_succ_pred ktail hsz1]
    norm_num
  | i8 =>
    have hsz1 : 1 ≤ ktail := hsz
    simp only [FieldKind.toFieldType, int8, Value.toNumInt, Option.bind_eq_bind,
      Option.some_bind]
    rw [setUint8_zero_tail 0 pre ktail hsz1]
    rw [replicate_succ_pred ktail hsz1]
    norm_num
  | u16 =>
    simp only [FieldKind.toFieldType, uint16, Value.toNumInt, Option.bind_eq_bind,
      Option.some_bind]
    rw [setUintN_zero_tail 2 0 le pre ktail hsz, splitBytes_zero,
      List.append_assoc, ← replicate_split 2 ktail hsz]
  | i16 =>
    simp only [FieldKind.toFieldType, int16, Value.toNumInt, Option.bind_eq_bind,
      Option.some_bind]
    rw [setUintN_zero_tail 2 0 le pre ktail hsz, splitBytes_zero,
      List.append_assoc, ← replicate_split 2 ktail hsz]
  | u32 =>
    simp only [FieldKind.toFieldType, uint32, Value.toNumInt, Option.bind_eq_bind,
      Option.some_bind]
    rw [setUintN_zero_tail 4 0 le pre ktail hsz, splitBytes_zero,
      List.append_assoc, ← replicate_split 4 ktail hsz]
  | i32 =>
    simp only [FieldKind.toFieldType, int32, Value.toNumInt, Option.bind_eq_bind,
      Option.some_bind]
    rw [setUintN_zero_tail 4 0 le pre ktail hsz, splitBytes_zero,
      List.append_assoc, ← replicate_split 4 ktail hsz]
  | textK m =>
    have hszm : m ≤ ktail := hsz
    simp only [FieldKind.toFieldType, string, Value.toTextBytes, Option.bind_eq_bind,
      Option.some_bind, List.take_nil, List.length_nil, Nat.zero_min, Nat.min_zero,
      Nat.sub_zero, Nat.cast_zero, add_zero, writeTextLoop]
    have hw := writeTextLoop_spec (List.replicate m 0) pre (List.replicate m 0)
      (List.replicate (ktail - m) 0) (pre.length + ktail) (by simp)
      (fun b hb => by simp at hb; omega) (by simp; omega)
    rw [List.append_assoc, ← replicate_split m ktail hszm] at hw
    exact hw
  | czK m =>
    have hm1 : 1 ≤ m := by
      simp [FieldKind.undefWritesZero] at hk
      exact hk
    have hszm : m ≤ ktail := hsz
    simp only [FieldKind.toFieldType, cstring, Value.toTextBytes, Option.bind_eq_bind,
      Option.some_bind, List.length_nil, Nat.cast_zero]
    have hmin : min (0 : Int) ((m : Int) - 1) = 0 := by omega
    rw [hmin]
    simp only [Int.toNat_zero, List.take_zero, writeTextLoop, Option.some_bind, add_zero]
    rw [setUint8_zero_tail 0 pre ktail (by omega)]
    rw [replicate_succ_pred ktail (by omega)]
    norm_num

theorem writeFields_undef (le : Bool) (kinds : List (String × FieldKind)) :
    ∀ (pre : List Nat) (ktail : Nat),
    (∀ p ∈ kinds, p.2.undefWritesZero = true) → kindsTotal kinds ≤ ktail →
    writeFields le (kindFields kinds) ⟨pre ++ List.replicate ktail 0, 0, pre.length + ktail⟩
        pre.length ([] : Record)
      = some ⟨pre ++ List.replicate ktail 0, 0, pre.length + ktail⟩ := by
  induction kinds with
  | nil => intro pre ktail _ _; rfl
  | cons hd kinds' ih =>
    obtain ⟨n, k⟩ := hd
    intro pre ktail hund hsz
    rw [kindsTotal_cons] at hsz
    have hk : k.undefWritesZero = true := hund (n, k) (by simp)
    have hlook : lookupValue ([] : Record) n = .undef := rfl
    have hkf : kindFields ((n, k) :: kinds') = (n, k.toFieldType) :: kindFields kinds' := rfl
    rw [hkf, writeFields, hlook, kindWrite_undef k le pre ktail hk (by omega)]
    simp only [Option.bind_eq_bind, Option.some_bind]
    have hstep := ih (pre ++ List.replicate k.size 0) (ktail - k.size)
      (fun p hp => hund p (by simp [hp])) (by omega)
    have hdata : (pre ++ List.replicate k.size 0) ++ List.replicate (ktail - k.size) 0
        = pre ++ List.replicate ktail 0 := by
      rw [List.append_assoc, ← replicate_split k.size ktail (by omega)]
    have haccE : (pre ++ List.replicate k.size 0).length = pre.length + k.toFieldType.size := by
      simp only [List.length_append, List.length_replicate]
      rfl
    rw [hdata, haccE] at hstep
    have hv2 : pre.length + k.toFieldType.size + (ktail - k.size) = pre.length + ktail := by
      have hks : k.toFieldType.size = k.size := rfl
      omega
    rw [hv2] at hstep
    exact hstep

/-! ### Null-terminated truncation: encoding text longer than the budget -/

theorem cstring_write_trunc (m : Nat) (s : Text) (le : Bool) (pre : List Nat) (ktail : Nat)
    (hm : 1 ≤ m) (hs : m ≤ s.length) (hlt : ∀ b ∈ s, b < 256) (hsz : m ≤ ktail) :
    (cstring m).write ⟨pre ++ List.replicate ktail 0, 0, pre.length + ktail⟩
        (pre.length : Int) (.str s) le
      = some ⟨pre ++ s.take (m - 1) ++ 0 :: List.replicate (ktail - m) 0, 0,
              pre.length + ktail⟩ := by
  simp only [cstring, Value.toTextBytes, Option.bind_eq_bind, Option.some_bind]
  have hc1 : ((m - 1 : Nat) : Int) = (m : Int) - 1 := by omega
  have hmin : min ((s.length : Nat) : Int) ((m : Int) - 1) = ((m - 1 : Nat) : Int) := by
    rw [hc1]
    have : (m : Int) ≤ (s.length : Int) := by exact_mod_cast hs
    omega
  rw [hmin, Int.toNat_natCast]
  have htklen : (s.take (m - 1)).length = m - 1 := by
    rw [List.length_take]
    omega
  rw [replicate_split (m - 1) ktail (by omega), ← List.append_assoc]
  rw [writeTextLoop_spec (s.take (m - 1)) pre (List.replicate (m - 1) 0)
    (List.replicate (ktail - (m - 1)) 0) (pre.length + ktail)
    (by simp [htklen]) (fun b hb => hlt b (List.take_subset _ _ hb))
    (by simp only [htklen, List.length_append]; omega)]
  simp only [Option.bind_eq_bind, Option.some_bind]
  have harg : (pre.length : Int) + ((m - 1 : Nat) : Int)
      = (((pre ++ s.take (m - 1)).length : Nat) : Int) := by
    simp [htklen]
  rw [harg]
  rw [replicate_succ_pred (ktail - (m - 1)) (by omega)]
  have hshape : pre ++ s.take (m - 1) ++ 0 :: List.replicate (ktail - (m - 1) - 1) 0
      = (pre ++ s.take (m - 1)) ++ 0 :: List.replicate (ktail - (m - 1) - 1) 0 := by
    simp
  rw [hshape]
  have hck : (0 : Int) ≤ (((pre ++ s.take (m - 1)).length : Nat) : Int) ∧
      (((pre ++ s.take (m - 1)).length : Nat) : Int) + 1
        ≤ ((pre.length + ktail : Nat) : Int) := by
    constructor
    · positivity
    · simp only [List.length_append, htklen]
      push_cast
      omega
  rw [DataView.setUint8, if_pos hck, Nat.zero_add, Int.toNat_natCast, set_at]
  have hcnt : ktail - (m - 1) - 1 = ktail - m := by omega
  rw [hcnt]
  norm_num

theorem cstring_parse_slot (m : Nat) (t : Text) (le : Bool) (pre rest : List Nat) (L : Nat)
    (hfuel : t.length < m) (hL : pre.length + m ≤ L) :
    (cstring m).parse ⟨pre ++ t ++ 0 :: rest, 0, L⟩ (pre.length : Int) le
      = some (.str (t.takeWhile (fun b => b != 0))) := by
  simp only [cstring]
  rw [cstrRead_spec t pre rest L m hfuel hL]
  rfl

theorem cstring_parse_no_zero (m : Nat) (dv : DataView) (off : Int) (le : Bool) (v : Value)
    (h : (cstring m).parse dv off le = some v) :
    ∃ t : Text, v = .str t ∧ 0 ∉ t := by
  simp only [cstring] at h
  match hr : cstrRead dv off m with
  | none => rw [hr] at h; simp at h
  | some t =>
    rw [hr] at h
    simp at h
    exact ⟨t, h.symm, cstrRead_no_zero m dv off t hr⟩

/-! ### Layout lemmas: offsets are the prefix sums of the sizes -/

theorem fieldOffsets_length : ∀ (fields : Fields) (acc : Nat),
    (fieldOffsets fields acc).length = fields.length := by
  intro fields
  induction fields with
  | nil => intro acc; rfl
  | cons f rest ih =>
    intro acc
    obtain ⟨n, ft⟩ := f
    simp only [fieldOffsets, List.length_cons, ih]

theorem fieldOffsets_getElem? : ∀ (fields : Fields) (acc i : Nat) (h : i < fields.length),
    (fieldOffsets fields acc)[i]?
      = some ((fields.get ⟨i, h⟩).1, acc + prefixSizes fields i) := by
  intro fields
  induction fields with
  | nil => intro acc i h; simp at h
  | cons f rest ih =>
    intro acc i h
    obtain ⟨n, ft⟩ := f
    match i with
    | 0 =>
      simp [fieldOffsets, prefixSizes]
    | i + 1 =>
      simp only [fieldOffsets, List.getElem?_cons_succ]
      rw [ih (acc + ft.size) i (by simpa using h)]
      have hpre : prefixSizes ((n, ft) :: rest) (i + 1) = ft.size + prefixSizes rest i := by
        simp [prefixSizes, List.take_succ_cons]
      rw [hpre]
      simp only [List.get_cons_succ]
      congr 2
      omega

theorem prefixSizes_succ : ∀ (fields : Fields) (i : Nat) (h : i < fields.length),
    prefixSizes fields (i + 1) = prefixSizes fields i + (fields.get ⟨i, h⟩).2.size := by
  intro fields
  induction fields with
  | nil => intro i h; simp at h
  | cons f rest ih =>
    intro i h
    obtain ⟨n, ft⟩ := f
    match i with
    | 0 => simp [prefixSizes]
    | i + 1 =>
      have := ih i (by simpa using h)
      simp only [prefixSizes, List.take_succ_cons, List.map_cons, List.sum_cons,
        List.get_cons_succ] at this ⊢
      omega

theorem prefixSizes_full (fields : Fields) :
    prefixSizes fields fields.length = totalSize fields := by
  unfold prefixSizes
  rw [List.take_length, totalSize_eq_sum]

theorem offsets_chain : ∀ (fields : Fields) (acc : Nat),
    (∀ f ∈ fields, 0 < f.2.size) →
    List.Chain' (· < ·) ((fieldOffsets fields acc).map Prod.snd) := by
  intro fields
  induction fields with
  | nil => intro acc _; simp [fieldOffsets]
  | cons f rest ih =>
    intro acc hpos
    obtain ⟨n, ft⟩ := f
    simp only [fieldOffsets, List.map_cons]
    match rest with
    | [] => simp [fieldOffsets]
    | g :: rest' =>
      obtain ⟨m, gt⟩ := g
      rw [List.chain'_cons']
      constructor
      · intro b hb
        simp only [fieldOffsets, List.map_cons, List.head?_cons, Option.mem_def,
          Option.some.injEq] at hb
        subst hb
        have h2 : 0 < ft.size := hpos (n, ft) (by simp)
        omega
      · exact ih (acc + ft.size) (fun p hp => hpos p (by simp [hp]))

/-! ### Clone: fresh allocation and store extension -/

theorem store_getD_set_ne (st : Store) (i j : Nat) (x : List Nat) (h : i ≠ j) :
    (st.set i x).getD j [] = st.getD j [] := by
  rw [List.getD_eq_getElem?_getD, List.getD_eq_getElem?_getD, List.getElem?_set_ne h]

theorem store_getD_append (st xs : Store) (j : Nat) (h : j < st.length) :
    (st ++ xs).getD j [] = st.getD j [] :=
  List.getD_append _ _ _ _ h

theorem store_getD_append_self (st : Store) (c : List Nat) :
    (st ++ [c]).getD st.length [] = c := by
  rw [List.getD_append_right _ _ _ _ (le_refl _), Nat.sub_self]
  rfl

theorem deref_extend (v : HValue) (st xs : Store)
    (h : ∀ a : Nat, v = .arr a → a < st.length) :
    v.deref (st ++ xs) = v.deref st := by
  cases v with
  | arr a =>
    simp only [HValue.deref]
    rw [store_getD_append st xs a (h a rfl)]
  | num x => rfl
  | big x => rfl
  | str x => rfl

theorem cloneFields_spec : ∀ (fs : List (String × HValue)) (st : Store),
    (∀ p ∈ fs, ∀ a : Nat, p.2 = .arr a → a < st.length) →
    st.length ≤ (cloneFields fs st).2.length ∧
    (∀ j, j < st.length → (cloneFields fs st).2.getD j [] = st.getD j []) ∧
    (cloneFields fs st).1.length = fs.length ∧
    (∀ i : Nat, ∀ p ∈ fs[i]?, ∀ q ∈ (cloneFields fs st).1[i]?,
      q.1 = p.1 ∧
      q.2.deref (cloneFields fs st).2 = p.2.deref st ∧
      ((∀ a : Nat, p.2 ≠ .arr a) → q.2 = p.2) ∧
      (∀ a : Nat, p.2 = .arr a →
        ∃ a', q.2 = .arr a' ∧ st.length ≤ a' ∧ a' < (cloneFields fs st).2.length)) := by
  intro fs
  induction fs with
  | nil =>
    intro st _
    refine ⟨le_refl _, fun j _ => rfl, rfl, ?_⟩
    intro i p hp
    simp at hp
  | cons hd rest ih =>
    obtain ⟨n, v⟩ := hd
    intro st hvalid
    have hvhd : ∀ a : Nat, v = .arr a → a < st.length := fun a ha =>
      hvalid (n, v) (by simp) a ha
    cases v with
    | arr a =>
      have ha : a < st.length := hvhd a rfl
      have hvalid' : ∀ p ∈ rest, ∀ b : Nat, p.2 = .arr b → b < (st ++ [st.getD a []]).length := by
        intro p hp b hb
        have := hvalid p (by simp [hp]) b hb
        simp
        omega
      have hrec := ih (st ++ [st.getD a []]) hvalid'
      obtain ⟨hlen, hpres, hflen, hfields⟩ := hrec
      have hstep : cloneFields ((n, .arr a) :: rest) st
          = ((n, .arr st.length) :: (cloneFields rest (st ++ [st.getD a []])).1,
             (cloneFields rest (st ++ [st.getD a []])).2) := rfl
      rw [hstep]
      have hextlen : st.length ≤ (st ++ [st.getD a []]).length := by simp
      have h3 : (st ++ [st.getD a []]).length = st.length + 1 := by
        rw [List.length_append, List.length_cons, List.length_nil]
      have hlen' : st.length + 1 ≤ (cloneFields rest (st ++ [st.getD a []])).2.length := by
        rw [h3] at hlen
        exact hlen
      refine ⟨?_, ?_, by simp only [List.length_cons, hflen], ?_⟩
      · show st.length ≤ (cloneFields rest (st ++ [st.getD a []])).2.length
        omega
      · intro j hj
        rw [hpres j (by simp; omega), store_getD_append st _ j hj]
      · intro i p hp q hq
        match i with
        | 0 =>
          simp only [List.getElem?_cons_zero, Option.mem_def, Option.some.injEq] at hp hq
          subst hp
          subst hq
          refine ⟨rfl, ?_, ?_, ?_⟩
          · simp only [HValue.deref]
            rw [hpres st.length (by simp), store_getD_append_self]
          · intro hno
            exact absurd rfl (hno a)
          · intro b hb
            have hba : b = a := by
              simpa using hb.symm
            refine ⟨st.length, rfl, le_refl _, ?_⟩
            show st.length < (cloneFields rest (st ++ [st.getD a []])).2.length
            omega
        | i + 1 =>
          simp only [List.getElem?_cons_succ] at hp hq
          have := hfields i p hp q hq
          obtain ⟨h1, h2, h3, h4⟩ := this
          refine ⟨h1, ?_, h3, ?_⟩
          · rw [h2]
            exact deref_extend p.2 st [st.getD a []]
              (fun b hb => hvalid p (by simp [List.getElem?_mem hp]) b hb)
          · intro b hb
            obtain ⟨a', hq2, hge, hlt⟩ := h4 b hb
            refine ⟨a', hq2, ?_, hlt⟩
            simp at hge
            omega
    | num x =>
      have hrec := ih st (fun p hp => hvalid p (by simp [hp]))
      obtain ⟨hlen, hpres, hflen, hfields⟩ := hrec
      have hstep : cloneFields ((n, .num x) :: rest) st
          = ((n, .num x) :: (cloneFields rest st).1, (cloneFields rest st).2) := rfl
      rw [hstep]
      refine ⟨hlen, hpres, by simp only [List.length_cons, hflen], ?_⟩
      intro i p hp q hq
      match i with
      | 0 =>
        simp only [List.getElem?_cons_zero, Option.mem_def, Option.some.injEq] at hp hq
        subst hp
        subst hq
        exact ⟨rfl, rfl, fun _ => rfl, fun b hb => by simp at hb⟩
      | i + 1 =>
        simp only [List.getElem?_cons_succ] at hp hq
        exact hfields i p hp q hq
    | big x =>
      have hrec := ih st (fun p hp => hvalid p (by simp [hp]))
      obtain ⟨hlen, hpres, hflen, hfields⟩ := hrec
      have hstep : cloneFields ((n, .big x) :: rest) st
          = ((n, .big x) :: (cloneFields rest st).1, (cloneFields rest st).2) := rfl
      rw [hstep]
      refine ⟨hlen, hpres, by simp only [List.length_cons, hflen], ?_⟩
      intro i p hp q hq
      match i with
      | 0 =>
        simp only [List.getElem?_cons_zero, Option.mem_def, Option.some.injEq] at hp hq
        subst hp
        subst hq
        exact ⟨rfl, rfl, fun _ => rfl, fun b hb => by simp at hb⟩
      | i + 1 =>
        simp only [List.getElem?_cons_succ] at hp hq
        exact hfields i p hp q hq
    | str x =>
      have hrec := ih st (fun p hp => hvalid p (by simp [hp]))
      obtain ⟨hlen, hpres, hflen, hfields⟩ := hrec
      have hstep : cloneFields ((n, .str x) :: rest) st
          = ((n, .str x) :: (cloneFields rest st).1, (cloneFields rest st).2) := rfl
      rw [hstep]
      refine ⟨hlen, hpres, by simp only [List.length_cons, hflen], ?_⟩
      intro i p hp q hq
      match i with
      | 0 =>
        simp only [List.getElem?_cons_zero, Option.mem_def, Option.some.injEq] at hp hq
        subst hp
        subst hq
        exact ⟨rfl, rfl, fun _ => rfl, fun b hb => by simp at hb⟩
      | i + 1 =>
        simp only [List.getElem?_cons_succ] at hp hq
        exact hfields i p hp q hq

theorem valid_to_prop (r : HRecord) (st : Store) (h : r.valid st = true) :
    ∀ p ∈ r.fields, ∀ a : Nat, p.2 = .arr a → a < st.length := by
  intro p hp a ha
  unfold HRecord.valid at h
  rw [List.all_eq_true] at h
  have := h p hp
  rw [ha] at this
  simpa using this

/-! ### Claim theorems -/

/-- C4 (code bug): the fixed-length text decoder does not read the `size`
bytes at the field's offset within the given view. On a Uint8Array whose
view starts at byteOffset 4 of an 8-byte buffer, a `string(4)` field at
offset 0 should decode the view's bytes `[14, 15, 16, 17]`, but the decoder
indexes the underlying buffer directly (ignoring the view's byteOffset) and
returns the bytes `[10, 11, 12, 13]`, which lie entirely outside the field's
range within the view. A `bytes(4)` field on the same input decodes the
correct bytes, isolating the defect to the fixed-length text decoder. -/
theorem tiny_struct_c4_string_reads_outside_view :
    (struct "S" [("a", string 4)] none).fromBuffer
        (.uint8Array [10, 11, 12, 13, 14, 15, 16, 17] 4 4) 0
      = some [("a", Value.str [10, 11, 12, 13])] ∧
    (struct "B" [("a", bytes 4)] none).fromBuffer
        (.uint8Array [10, 11, 12, 13, 14, 15, 16, 17] 4 4) 0
      = some [("a", Value.bytes [14, 15, 16, 17])] := by
  constructor
  · decide
  · decide

/-- C7 (amended): struct construction is a total function that performs no
validation at all: whatever the field list, it returns the record of the
name, fields, resolved endianness flag and accumulated size, and there is no
failure path. -/
theorem tiny_struct_c7_construction_total (name : String) (fields : Fields)
    (opt : Option Bool) :
    (struct name fields opt).name = name ∧
    (struct name fields opt).fields = fields ∧
    (struct name fields opt).littleEndian = opt.getD false ∧
    (struct name fields opt).size = totalSize fields :=
  ⟨rfl, rfl, rfl, rfl⟩

/-- C7 counterexample: a field list containing a zero-size (non-positive)
field type is accepted at construction time — the resulting struct has size
0 and its encode and decode operations run and succeed, whereas the claim
requires construction to fail before any parse or encode. -/
theorem tiny_struct_c7_counterexample :
    (struct "X" [("a", bytes 0)] none).size = 0 ∧
    (struct "X" [("a", bytes 0)] none).to [("a", Value.bytes [])] = some [] ∧
    (struct "X" [("a", bytes 0)] none).fromBuffer (.arrayBuffer []) 0
      = some [("a", Value.bytes [])] := by
  refine ⟨rfl, by decide, by decide⟩

/-- C8 (confirmed): encoding 12345 into a 4-byte unsigned little-endian
field stores bytes 0x39, 0x30, 0, 0 in that order; the same struct without
the flag (big-endian default) stores the reversed order, showing the single
per-struct flag drives every multi-byte integer field; and the single-byte
and text field types ignore the endianness flag entirely (their parse and
write do not depend on it). -/
theorem tiny_struct_c8_endianness :
    (struct "S" [("v", uint32)] (some true)).to [("v", Value.num 12345)]
      = some [0x39, 0x30, 0, 0] ∧
    (struct "S" [("v", uint32)] none).to [("v", Value.num 12345)]
      = some [0, 0, 0x30, 0x39] ∧
    (∀ (dv : DataView) (off : Int) (le le' : Bool) (v : Value),
      uint8.parse dv off le = uint8.parse dv off le' ∧
      uint8.write dv off v le = uint8.write dv off v le' ∧
      int8.parse dv off le = int8.parse dv off le' ∧
      int8.write dv off v le = int8.write dv off v le') ∧
    (∀ (m : Nat) (dv : DataView) (off : Int) (le le' : Bool) (v : Value),
      (bytes m).parse dv off le = (bytes m).parse dv off le' ∧
      (bytes m).write dv off v le = (bytes m).write dv off v le' ∧
      (cstring m).parse dv off le = (cstring m).parse dv off le' ∧
      (cstring m).write dv off v le = (cstring m).write dv off v le' ∧
      (string m).parse dv off le = (string m).parse dv off le' ∧
      (string m).write dv off v le = (string m).write dv off v le') := by
  refine ⟨by decide, by decide, ?_, ?_⟩
  · intro dv off le le' v
    exact ⟨rfl, rfl, rfl, rfl⟩
  · intro m dv off le le' v
    exact ⟨rfl, rfl, rfl, rfl, rfl, rfl⟩

/-- C1 (amended): for every struct built from the built-in field kinds and
every record listing exactly the declared field names, in declaration order
and without duplicates, whose values conform byte-exactly — byte arrays of
exactly the declared length, unsigned/signed integers of widths 1/2/4/8 in
range, fixed text whose encoding is exactly the field width, and
null-terminated text of at most n−1 bytes containing no zero byte — `to`
succeeds with a buffer of exactly the struct's size and `from` of that
buffer returns a record equal to the input on every field. -/
theorem tiny_struct_c1_roundtrip (name : String) (opt : Option Bool)
    (kinds : List (String × FieldKind)) (r : Record)
    (hnames : r.map Prod.fst = kinds.map Prod.fst)
    (hnodup : (kinds.map Prod.fst).Nodup)
    (hconf : ∀ p ∈ kinds, p.2.conforms (lookupValue r p.1) = true) :
    ∃ buf : List Nat,
      (struct name (kindFields kinds) opt).to r = some buf ∧
      buf.length = (struct name (kindFields kinds) opt).size ∧
      (struct name (kindFields kinds) opt).fromBuffer (.arrayBuffer buf) 0 = some r := by
  obtain ⟨buf, h1, h2, h3⟩ := roundtrip_kinds name opt kinds r hconf
  rw [recOf_eq kinds r hnames hnodup] at h3
  exact ⟨buf, h1, h2, h3⟩

/-- Witness for C1 at a struct exercising every built-in field kind. -/
theorem tiny_struct_c1_roundtrip_witness :
    ([("m", Value.bytes [1, 255]), ("a", Value.num 200), ("b", Value.num 43981),
      ("c", Value.num 12345), ("d", Value.big 12345678901), ("e", Value.num (-5)),
      ("f", Value.num (-300)), ("g", Value.num (-100000)), ("h", Value.big (-50)),
      ("t", Value.str [104, 105]), ("z", Value.str [104, 105])].map Prod.fst
      = [("m", FieldKind.bytesK 2), ("a", FieldKind.u8), ("b", FieldKind.u16),
         ("c", FieldKind.u32), ("d", FieldKind.u64), ("e", FieldKind.i8),
         ("f", FieldKind.i16), ("g", FieldKind.i32), ("h", FieldKind.i64),
         ("t", FieldKind.textK 2), ("z", FieldKind.czK 3)].map Prod.fst) ∧
    ∃ buf : List Nat,
      (struct "All" (kindFields
          [("m", FieldKind.bytesK 2), ("a", FieldKind.u8), ("b", FieldKind.u16),
           ("c", FieldKind.u32), ("d", FieldKind.u64), ("e", FieldKind.i8),
           ("f", FieldKind.i16), ("g", FieldKind.i32), ("h", FieldKind.i64),
           ("t", FieldKind.textK 2), ("z", FieldKind.czK 3)]) (some true)).to
          [("m", Value.bytes [1, 255]), ("a", Value.num 200), ("b", Value.num 43981),
           ("c", Value.num 12345), ("d", Value.big 12345678901), ("e", Value.num (-5)),
           ("f", Value.num (-300)), ("g", Value.num (-100000)), ("h", Value.big (-50)),
           ("t", Value.str [104, 105]), ("z", Value.str [104, 105])] = some buf ∧
      buf.length = (struct "All" (kindFields
          [("m", FieldKind.bytesK 2), ("a", FieldKind.u8), ("b", FieldKind.u16),
           ("c", FieldKind.u32), ("d", FieldKind.u64), ("e", FieldKind.i8),
           ("f", FieldKind.i16), ("g", FieldKind.i32), ("h", FieldKind.i64),
           ("t", FieldKind.textK 2), ("z", FieldKind.czK 3)]) (some true)).size ∧
      (struct "All" (kindFields
          [("m", FieldKind.bytesK 2), ("a", FieldKind.u8), ("b", FieldKind.u16),
           ("c", FieldKind.u32), ("d", FieldKind.u64), ("e", FieldKind.i8),
           ("f", FieldKind.i16), ("g", FieldKind.i32), ("h", FieldKind.i64),
           ("t", FieldKind.textK 2), ("z", FieldKind.czK 3)]) (some true)).fromBuffer
          (.arrayBuffer buf) 0
        = some [("m", Value.bytes [1, 255]), ("a", Value.num 200), ("b", Value.num 43981),
                ("c", Value.num 12345), ("d", Value.big 12345678901), ("e", Value.num (-5)),
                ("f", Value.num (-300)), ("g", Value.num (-100000)), ("h", Value.big (-50)),
                ("t", Value.str [104, 105]), ("z", Value.str [104, 105])] :=
  ⟨by decide,
   tiny_struct_c1_roundtrip "All" (some true)
     [("m", FieldKind.bytesK 2), ("a", FieldKind.u8), ("b", FieldKind.u16),
      ("c", FieldKind.u32), ("d", FieldKind.u64), ("e", FieldKind.i8),
      ("f", FieldKind.i16), ("g", FieldKind.i32), ("h", FieldKind.i64),
      ("t", FieldKind.textK 2), ("z", FieldKind.czK 3)]
     [("m", Value.bytes [1, 255]), ("a", Value.num 200), ("b", Value.num 43981),
      ("c", Value.num 12345), ("d", Value.big 12345678901), ("e", Value.num (-5)),
      ("f", Value.num (-300)), ("g", Value.num (-100000)), ("h", Value.big (-50)),
      ("t", Value.str [104, 105]), ("z", Value.str [104, 105])]
     (by decide) (by decide) (by decide)⟩

/-- C1 counterexample: the claim as stated includes fixed text whose
encoding is AT MOST the field width; but a `string(2)` field holding the
one-byte text [104] does not round-trip — the decoder keeps the zero
padding, returning [104, 0]. -/
theorem tiny_struct_c1_counterexample :
    ((struct "S" [("a", string 2)] none).to [("a", Value.str [104])]).bind
        (fun b => (struct "S" [("a", string 2)] none).fromBuffer (.arrayBuffer b) 0)
      = some [("a", Value.str [104, 0])] ∧
    Value.str [104, 0] ≠ Value.str [104] := by
  constructor
  · decide
  · decide

/-- C2 (amended): `from` performs no up-front bounds check. When `0 ≤ o` and
`o + S.size` is within the buffer view, `from` succeeds for every struct
built from the built-in field kinds; and a struct with no fields succeeds at
ANY offset over ANY buffer — even an offset past the end — because no field
read ever occurs, so an out-of-range offset is not rejected at entry. -/
theorem tiny_struct_c2_bounds (name : String) (opt : Option Bool)
    (kinds : List (String × FieldKind)) (b : JSBuffer) (o : Int)
    (hwf : b.toDataView.wf) (h0 : 0 ≤ o)
    (hsz : o + (struct name (kindFields kinds) opt).size ≤ (b.toDataView.viewLen : Int)) :
    ((struct name (kindFields kinds) opt).fromBuffer b o).isSome ∧
    ∀ (data : List Nat) (off : Int),
      (struct name ([] : Fields) opt).fromBuffer (.arrayBuffer data) off = some [] := by
  constructor
  · have hksz : (struct name (kindFields kinds) opt).size = kindsTotal kinds := by
      unfold StructDef.size struct
      exact totalSize_kindFields kinds
    rw [hksz] at hsz
    unfold StructDef.fromBuffer
    exact parseFields_isSome _ b.toDataView o hwf h0 kinds 0 (by push_cast; omega)
  · intro data off
    rfl

/-- Witness for C2: a one-byte field decoded at offset 1 of a two-byte
buffer. -/
theorem tiny_struct_c2_bounds_witness :
    (JSBuffer.arrayBuffer [7, 8]).toDataView.wf ∧
    ((struct "S" (kindFields [("a", FieldKind.u8)]) none).fromBuffer
        (.arrayBuffer [7, 8]) 1).isSome :=
  ⟨by unfold DataView.wf JSBuffer.toDataView; decide,
   (tiny_struct_c2_bounds "S" none [("a", FieldKind.u8)] (.arrayBuffer [7, 8]) 1
     (by unfold DataView.wf JSBuffer.toDataView; decide) (by decide) (by decide)).1⟩

/-- C2 counterexample: a struct with no fields has size 0, so at offset 5
over an empty buffer `offset + size` exceeds the buffer length and the claim
requires `from` to fail at entry; but the code performs no such check and
`from` succeeds, returning the empty record. -/
theorem tiny_struct_c2_counterexample :
    (struct "E" ([] : Fields) none).fromBuffer (.arrayBuffer []) 5 = some [] ∧
    ¬((5 : Int) + (struct "E" ([] : Fields) none).size
        ≤ (((JSBuffer.arrayBuffer []).toDataView.viewLen : Nat) : Int)) := by
  constructor
  · rfl
  · decide

/-- C3 (amended): `to` performs no missing-field check at entry. A record
missing every key still encodes when all fields are 1/2/4-byte integers,
fixed text, or null-terminated text of size at least 1 — each missing field
is silently written as zero bytes, producing the all-zero buffer; a missing
byte-array field or 8-byte integer field instead throws at that field's
write. When every declared key is present with a conforming value, `to`
succeeds and returns a buffer of exactly the struct's size. -/
theorem tiny_struct_c3_missing_fields (name : String) (opt : Option Bool)
    (kinds : List (String × FieldKind)) (r : Record) :
    ((∀ p ∈ kinds, p.2.undefWritesZero = true) →
      (struct name (kindFields kinds) opt).to []
        = some (List.replicate (struct name (kindFields kinds) opt).size 0)) ∧
    ((struct "B" [("a", bytes 1)] none).to [] = none ∧
     (struct "W" [("a", uint64)] none).to [] = none) ∧
    ((∀ p ∈ kinds, p.2.conforms (lookupValue r p.1) = true) →
      ∃ buf : List Nat,
        (struct name (kindFields kinds) opt).to r = some buf ∧
        buf.length = (struct name (kindFields kinds) opt).size) := by
  refine ⟨?_, ⟨by decide, by decide⟩, ?_⟩
  · intro hund
    have hksz : (struct name (kindFields kinds) opt).size = kindsTotal kinds := by
      unfold StructDef.size struct
      exact totalSize_kindFields kinds
    unfold StructDef.to
    rw [hksz]
    have hw := writeFields_undef (struct name (kindFields kinds) opt).littleEndian kinds
      [] (kindsTotal kinds) hund (le_refl _)
    simp only [List.nil_append, List.length_nil, Nat.zero_add] at hw
    have hfields : (struct name (kindFields kinds) opt).fields = kindFields kinds := rfl
    rw [hfields, hw]
    rfl
  · intro hconf
    obtain ⟨buf, h1, h2, _⟩ := roundtrip_kinds name opt kinds r hconf
    exact ⟨buf, h1, h2⟩

/-- Witness for C3: a missing-key record zero-encodes on an integer/text
struct, and a fully-populated record encodes to a buffer of the struct's
size. -/
theorem tiny_struct_c3_missing_fields_witness :
    ((struct "S" (kindFields [("a", FieldKind.u16), ("t", FieldKind.czK 2)]) none).to []
      = some (List.replicate
          (struct "S" (kindFields [("a", FieldKind.u16), ("t", FieldKind.czK 2)]) none).size
          0)) ∧
    ∃ buf : List Nat,
      (struct "S" (kindFields [("a", FieldKind.u16), ("t", FieldKind.czK 2)]) none).to
          [("a", Value.num 5), ("t", Value.str [104])] = some buf ∧
      buf.length
        = (struct "S" (kindFields [("a", FieldKind.u16), ("t", FieldKind.czK 2)]) none).size := by
  obtain ⟨h1, _, h3⟩ := tiny_struct_c3_missing_fields "S" none
    [("a", FieldKind.u16), ("t", FieldKind.czK 2)] [("a", Value.num 5), ("t", Value.str [104])]
  exact ⟨h1 (by decide), h3 (by decide)⟩

/-- C3 counterexample: the record `{}` lacks the declared key `a`, so the
claim requires `to` to fail with a missing-field condition before writing
any bytes; instead `to` succeeds, encoding the missing uint8 field as the
byte 0. -/
theorem tiny_struct_c3_counterexample :
    (struct "S" [("a", uint8)] none).to [] = some [0] := by
  decide

/-- C5 (amended): for every struct, the size is the sum of all field sizes,
field `i`'s offset is the sum of the sizes of the fields before it
(consecutive offsets differ by exactly the intervening field's size — no
gaps or overlaps), and the last field's offset plus its size is the total
size; the offsets are strictly increasing provided every field size is
positive (a zero-size field, which construction accepts, repeats the same
offset). -/
theorem tiny_struct_c5_layout (name : String) (fields : Fields) (opt : Option Bool) :
    (struct name fields opt).size = (fields.map fun f => f.2.size).sum ∧
    (∀ i (h : i < fields.length),
      (struct name fields opt).offsets[i]?
        = some ((fields.get ⟨i, h⟩).1, prefixSizes fields i)) ∧
    (∀ i (h : i < fields.length),
      prefixSizes fields (i + 1) = prefixSizes fields i + (fields.get ⟨i, h⟩).2.size) ∧
    (∀ (h : 0 < fields.length),
      prefixSizes fields (fields.length - 1)
        + (fields.get ⟨fields.length - 1, by omega⟩).2.size
        = (struct name fields opt).size) ∧
    ((∀ f ∈ fields, 0 < f.2.size) →
      List.Chain' (· < ·) ((struct name fields opt).offsets.map Prod.snd)) := by
  refine ⟨?_, ?_, ?_, ?_, ?_⟩
  · unfold StructDef.size struct
    exact totalSize_eq_sum fields
  · intro i h
    show (fieldOffsets fields 0)[i]? = _
    rw [fieldOffsets_getElem? fields 0 i h]
    rw [Nat.zero_add]
  · intro i h
    exact prefixSizes_succ fields i h
  · intro h
    have hs := prefixSizes_succ fields (fields.length - 1) (by omega)
    have hfull : fields.length - 1 + 1 = fields.length := by omega
    rw [hfull] at hs
    rw [← hs, prefixSizes_full]
    rfl
  · intro hpos
    unfold StructDef.offsets
    exact offsets_chain fields 0 hpos

/-- Witness for C5 on a three-field struct: size 8, the second field's
offset is 1, the last offset plus size reaches 8, and offsets are strictly
increasing. -/
theorem tiny_struct_c5_layout_witness :
    (struct "H" [("a", uint8), ("b", uint32), ("c", bytes 3)] none).size = 8 ∧
    (struct "H" [("a", uint8), ("b", uint32), ("c", bytes 3)] none).offsets[1]?
      = some ("b", 1) ∧
    prefixSizes [("a", uint8), ("b", uint32), ("c", bytes 3)] 2
      + (([("a", uint8), ("b", uint32), ("c", bytes 3)] : Fields).get
          ⟨2, by decide⟩).2.size
      = (struct "H" [("a", uint8), ("b", uint32), ("c", bytes 3)] none).size ∧
    List.Chain' (· < ·)
      ((struct "H" [("a", uint8), ("b", uint32), ("c", bytes 3)] none).offsets.map
        Prod.snd) := by
  obtain ⟨h1, h2, h3, h4, h5⟩ :=
    tiny_struct_c5_layout "H" [("a", uint8), ("b", uint32), ("c", bytes 3)] none
  refine ⟨h1.trans (by decide), (h2 1 (by decide)).trans (by decide), ?_, h5 (by decide)⟩
  exact h4 (by decide)

/-- C5 counterexample: the claim asserts strictly increasing offsets for
EVERY struct definition, but a struct containing a zero-size byte-array
field (accepted by construction) assigns the same offset 0 to two fields. -/
theorem tiny_struct_c5_counterexample :
    ¬ List.Chain' (· < ·)
      ((struct "X" [("a", bytes 0), ("b", uint8)] none).offsets.map Prod.snd) := by
  intro hc
  have hoff : ((struct "X" [("a", bytes 0), ("b", uint8)] none).offsets.map Prod.snd)
      = [0, 0] := rfl
  rw [hoff, List.chain'_cons] at hc
  exact absurd hc.1 (by omega)

/-- C6 (amended): for a null-terminated field of size n ≥ 1, encoding text
whose byte encoding is longer than n−1 bytes writes exactly the first n−1
encoded bytes followed by a zero terminator (the rest of the slot keeps its
prior zero contents); decoding a slot holding bytes `t` then a zero yields
the longest zero-free prefix of `t` — equal to all of `t` exactly when `t`
contains no zero byte — and no decoded null-terminated text value ever
contains a zero byte. -/
theorem tiny_struct_c6_cstring_truncation (n : Nat) (s : Text) (le : Bool)
    (pre : List Nat) (ktail : Nat) :
    (1 ≤ n → n ≤ s.length → (∀ b ∈ s, b < 256) → n ≤ ktail →
      (cstring n).write ⟨pre ++ List.replicate ktail 0, 0, pre.length + ktail⟩
          (pre.length : Int) (.str s) le
        = some ⟨pre ++ s.take (n - 1) ++ 0 :: List.replicate (ktail - n) 0, 0,
                pre.length + ktail⟩) ∧
    (∀ (t rest : List Nat) (L : Nat), t.length < n → pre.length + n ≤ L →
      (cstring n).parse ⟨pre ++ t ++ 0 :: rest, 0, L⟩ (pre.length : Int) le
        = some (.str (t.takeWhile (fun b => b != 0)))) ∧
    (∀ (dv : DataView) (off : Int) (v : Value),
      (cstring n).parse dv off le = some v → ∃ t : Text, v = .str t ∧ 0 ∉ t) := by
  refine ⟨?_, ?_, ?_⟩
  · intro h1 h2 h3 h4
    exact cstring_write_trunc n s le pre ktail h1 h2 h3 h4
  · intro t rest L hf hL
    exact cstring_parse_slot n t le pre rest L hf hL
  · intro dv off v h
    exact cstring_parse_no_zero n dv off le v h

/-- Witness for C6 at n = 3 with a 4-byte text: the write stores the first
2 bytes plus a terminator, and decoding a 2-byte zero-free slot returns
those bytes. -/
theorem tiny_struct_c6_cstring_truncation_witness :
    ((cstring 3).write ⟨[] ++ List.replicate 3 0, 0, List.length ([] : List Nat) + 3⟩
        ((List.length ([] : List Nat) : Nat) : Int) (.str [104, 105, 106, 107]) false
      = some ⟨[] ++ [104, 105, 106, 107].take (3 - 1) ++ 0 :: List.replicate (3 - 3) 0, 0,
              List.length ([] : List Nat) + 3⟩) ∧
    ((cstring 3).parse ⟨[] ++ [104, 105] ++ 0 :: [], 0, 3⟩
        ((List.length ([] : List Nat) : Nat) : Int) false
      = some (.str ([104, 105].takeWhile (fun b => b != 0)))) := by
  obtain ⟨h1, h2, _⟩ :=
    tiny_struct_c6_cstring_truncation 3 [104, 105, 106, 107] false [] 3
  exact ⟨h1 (by decide) (by decide) (by decide) (by decide),
         h2 [104, 105] [] 3 (by decide) (by decide)⟩

/-- C6 counterexample: the claim says decoding the truncated slot yields
exactly the first n−1 encoded bytes; but when those bytes contain a zero
byte the decoder stops early. Encoding the text bytes [0, 104] into a
null-terminated(2) field and decoding yields the empty text, not [0]. -/
theorem tiny_struct_c6_counterexample :
    ((struct "S" [("a", cstring 2)] none).to [("a", Value.str [0, 104])]).bind
        (fun b => (struct "S" [("a", cstring 2)] none).fromBuffer (.arrayBuffer b) 0)
      = some [("a", Value.str [])] ∧
    Value.str ([] : List Nat) ≠ Value.str ([0] : List Nat) := by
  constructor
  · decide
  · decide

/-- C9 (confirmed): `$clone` returns a record carrying the same struct
back-reference, with the same field names in the same order; every field
reads equal to the original's (dereferencing byte-array references through
the store); non-array fields are copied by value (the identical value); and
every byte-array field of the clone holds a freshly allocated address
distinct from the original's, so overwriting the clone's array in the store
leaves the original field's contents unchanged and vice versa. -/
theorem tiny_struct_c9_clone_isolation (r : HRecord) (st : Store)
    (hvalid : r.valid st = true) :
    (r.clone st).1.structRef = r.structRef ∧
    (r.clone st).1.fields.length = r.fields.length ∧
    (∀ i : Nat, ∀ p ∈ r.fields[i]?, ∀ q ∈ (r.clone st).1.fields[i]?,
      q.1 = p.1 ∧
      q.2.deref (r.clone st).2 = p.2.deref st ∧
      ((∀ a : Nat, p.2 ≠ .arr a) → q.2 = p.2) ∧
      (∀ a a' : Nat, p.2 = .arr a → q.2 = .arr a' →
        a ≠ a' ∧
        (∀ bs : List Nat,
          (((r.clone st).2.set a' bs).getD a []) = (r.clone st).2.getD a [] ∧
          (((r.clone st).2.set a bs).getD a' []) = (r.clone st).2.getD a' []))) := by
  have hprop := valid_to_prop r st hvalid
  obtain ⟨hlen, hpres, hflen, hfields⟩ := cloneFields_spec r.fields st hprop
  have hc1 : (r.clone st).1.structRef = r.structRef := rfl
  have hc2 : (r.clone st).1.fields = (cloneFields r.fields st).1 := rfl
  have hc3 : (r.clone st).2 = (cloneFields r.fields st).2 := rfl
  refine ⟨hc1, by rw [hc2, hflen], ?_⟩
  intro i p hp q hq
  rw [hc2] at hq
  obtain ⟨h1, h2, h3, h4⟩ := hfields i p hp q hq
  refine ⟨h1, by rw [hc3]; exact h2, h3, ?_⟩
  intro a a' hpa hqa
  obtain ⟨a'', hq2, hge, hlt⟩ := h4 a hpa
  have ha'' : a' = a'' := by
    rw [hq2] at hqa
    simpa using hqa.symm
  subst ha''
  have halt : a < st.length := hprop p (List.getElem?_mem hp) a hpa
  have hne : a ≠ a' := by omega
  refine ⟨hne, ?_⟩
  intro bs
  rw [hc3]
  exact ⟨store_getD_set_ne _ a' a bs (by omega),
         store_getD_set_ne _ a a' bs (by omega)⟩

/-- Witness for C9: a two-field record (one byte-array, one number) over a
one-array store. -/
theorem tiny_struct_c9_clone_isolation_witness :
    ((⟨[("x", HValue.arr 0), ("y", HValue.num 5)],
        struct "S" [("x", bytes 2), ("y", uint8)] none⟩ : HRecord).valid [[1, 2]]
      = true) ∧
    ((⟨[("x", HValue.arr 0), ("y", HValue.num 5)],
        struct "S" [("x", bytes 2), ("y", uint8)] none⟩ : HRecord).clone [[1, 2]]).1.structRef
      = (⟨[("x", HValue.arr 0), ("y", HValue.num 5)],
          struct "S" [("x", bytes 2), ("y", uint8)] none⟩ : HRecord).structRef ∧
    ((⟨[("x", HValue.arr 0), ("y", HValue.num 5)],
        struct "S" [("x", bytes 2), ("y", uint8)] none⟩ : HRecord).clone [[1, 2]]).1.fields.length
      = (⟨[("x", HValue.arr 0), ("y", HValue.num 5)],
          struct "S" [("x", bytes 2), ("y", uint8)] none⟩ : HRecord).fields.length :=
  ⟨by decide,
   (tiny_struct_c9_clone_isolation
     (⟨[("x", HValue.arr 0), ("y", HValue.num 5)],
       struct "S" [("x", bytes 2), ("y", uint8)] none⟩ : HRecord) [[1, 2]] (by decide)).1,
   (tiny_struct_c9_clone_isolation
     (⟨[("x", HValue.arr 0), ("y", HValue.num 5)],
       struct "S" [("x", bytes 2), ("y", uint8)] none⟩ : HRecord) [[1, 2]] (by decide)).2.1⟩

/-- C10 (confirmed): the 1/2/4-byte integer writers never fail on
out-of-range values — the stored bytes are the value reduced mod 2^(8w) —
and the readers return the reduced value (reinterpreted as signed for the
signed types); consequently a record holding 256 in a uint8 field
round-trips to 0 with both operations succeeding, differing from the
original without any error. -/
theorem tiny_struct_c10_modular_wrap (v : Int) (le : Bool) :
    uint8.write ⟨List.replicate 1 0, 0, 1⟩ 0 (Value.num v) le
      = some ⟨[(v % 256).toNat], 0, 1⟩ ∧
    uint8.parse ⟨[(v % 256).toNat], 0, 1⟩ 0 le = some (.num (v % 256)) ∧
    uint32.write ⟨List.replicate 4 0, 0, 4⟩ 0 (Value.num v) le
      = some ⟨splitBytes 4 v le, 0, 4⟩ ∧
    uint32.parse ⟨splitBytes 4 v le, 0, 4⟩ 0 le = some (.num (v % 2 ^ 32)) ∧
    int32.parse ⟨splitBytes 4 v le, 0, 4⟩ 0 le
      = some (.num (toSigned 4 (v % 2 ^ 32).toNat)) ∧
    (((struct "A" [("a", uint8)] none).to [("a", Value.num 256)]).bind
        (fun b => (struct "A" [("a", uint8)] none).fromBuffer (.arrayBuffer b) 0)
      = some [("a", Value.num 0)] ∧ (0 : Int) ≠ 256) := by
  have h32 : ((2 : Int) ^ (8 * 4)) = 2 ^ 32 := by norm_num
  refine ⟨?_, ?_, ?_, ?_, ?_, by decide, by decide⟩
  · have hw := setUint8_zero_tail v [] 1 (by omega)
    simp only [List.nil_append, List.length_nil, Nat.zero_add, Nat.sub_self,
      List.replicate_zero] at hw
    simpa [uint8, Value.toNumInt] using hw
  · have hp := getUint8_middle [] [] ((v % 256).toNat)
    simp only [List.nil_append, List.append_nil, List.length_nil, Nat.cast_zero,
      List.length_cons] at hp
    have hval : (((v % 256).toNat : Nat) : Int) = v % 256 := by omega
    simp only [uint8]
    rw [hp]
    simp [hval]
  · have hw := setUintN_zero_tail 4 v le [] 4 (by omega)
    simp only [List.nil_append, List.length_nil, Nat.zero_add, Nat.sub_self,
      List.replicate_zero, List.append_nil] at hw
    simpa [uint32, Value.toNumInt] using hw
  · have hp := getUintN_slot 4 v le [] []
    simp only [List.nil_append, List.append_nil, List.length_nil, Nat.cast_zero,
      splitBytes_length] at hp
    have hnn : (0 : Int) ≤ v % ((2 : Int) ^ (8 * 4)) := Int.emod_nonneg v (by positivity)
    have hval : (((v % ((2 : Int) ^ (8 * 4))).toNat : Nat) : Int) = v % 2 ^ 32 := by
      rw [Int.toNat_of_nonneg hnn, h32]
    simp only [uint32]
    rw [hp]
    simp [hval]
    omega
  · have hp := getUintN_slot 4 v le [] []
    simp only [List.nil_append, List.append_nil, List.length_nil, Nat.cast_zero,
      splitBytes_length] at hp
    simp only [int32]
    rw [hp]
    simp [h32]

end TinyStruct
